import Mathlib

/-!
Verification of the readability content extractor
(`src/readability/readability.py`) against its specification.

The development shallowly embeds the text utilities, the DOM walks, the
metadata collector, the paragraph scorer, the sanitizer's conditional
cleaning step and the driver loop as executable Lean functions, and proves
or refutes the frozen specification claims about them.

Strings are modelled as `List Char`.  The whitespace class is the ASCII
part of the regex class `\s` used by `re.sub` in `clean`.
-/

namespace Readability

/-- ASCII whitespace, the character class `\s` of the Python regexes:
space, tab, newline, carriage return, vertical tab, form feed. -/
def isWsC (c : Char) : Bool :=
  c = ' ' || c = '\t' || c = '\n' || c = '\r' || c = '\x0b' || c = '\x0c'

/-- The character class `[ \t]` of the second regex in `clean`. -/
def isSpTab (c : Char) : Bool :=
  c = ' ' || c = '\t'

/-- `re.sub('\s*\n\s*', '\n', text)`: every maximal whitespace run that
contains a newline is replaced by a single newline (the regex match is
leftmost and greedy, so it always swallows a whole maximal run). -/
def sub1 : List Char → List Char
  | [] => []
  | c :: cs =>
    if isWsC c then
      (if (c :: cs.takeWhile isWsC).contains '\n' then ['\n']
       else c :: cs.takeWhile isWsC) ++ sub1 (cs.dropWhile isWsC)
    else c :: sub1 cs
termination_by l => l.length
decreasing_by
  · simpa using Nat.lt_succ_of_le ((cs.dropWhile_sublist isWsC).length_le)
  · simp

/-- `re.sub('[ \t]{2,}', ' ', text)`: every maximal run of two or more
spaces/tabs is replaced by a single space. -/
def sub2 : List Char → List Char
  | [] => []
  | c :: cs =>
    if isSpTab c then
      (if cs.takeWhile isSpTab = [] then [c] else [' '])
        ++ sub2 (cs.dropWhile isSpTab)
    else c :: sub2 cs
termination_by l => l.length
decreasing_by
  · simpa using Nat.lt_succ_of_le ((cs.dropWhile_sublist isSpTab).length_le)
  · simp

/-- Python `str.strip()`: remove leading and trailing whitespace. -/
def stripWs (l : List Char) : List Char :=
  (l.dropWhile isWsC).rdropWhile isWsC

/-- `clean(text)` from the source: the two substitutions followed by
`strip()`. -/
def clean (l : List Char) : List Char :=
  stripWs (sub2 (sub1 l))

/-! ### Run decomposition

`sub1` and `sub2` act independently on the maximal runs of whitespace /
non-whitespace characters; we develop that decomposition in order to reason
about `clean`. -/

/-- Split a list into its maximal runs of characters of equal
whitespace-ness. -/
def runsOf : List Char → List (List Char)
  | [] => []
  | c :: cs =>
    (c :: cs.takeWhile (fun d => isWsC d == isWsC c)) ::
      runsOf (cs.dropWhile (fun d => isWsC d == isWsC c))
termination_by l => l.length
decreasing_by
  simpa using Nat.lt_succ_of_le ((cs.dropWhile_sublist _).length_le)

/-- A run is homogeneous: all whitespace or all non-whitespace. -/
def Homog (r : List Char) : Prop :=
  (∀ c ∈ r, isWsC c) ∨ (∀ c ∈ r, isWsC c = false)

/-- Whitespace-ness of a run, as a Boolean. -/
def runWs (r : List Char) : Bool := r.all isWsC

/-- Well-formed run lists: nonempty homogeneous runs of alternating
whitespace-ness. -/
inductive RunsOk : List (List Char) → Prop
  | nil : RunsOk []
  | single {r} : r ≠ [] → Homog r → RunsOk [r]
  | cons {r s rest} : r ≠ [] → Homog r → runWs r = !runWs s →
      RunsOk (s :: rest) → RunsOk (r :: s :: rest)

/-- What `sub1` makes of one whitespace run. -/
def sub1run (r : List Char) : List Char :=
  if r.contains '\n' then ['\n'] else r

/-- The combined effect of `sub1` then `sub2` on one run. -/
def normRun (r : List Char) : List Char :=
  sub2 (sub1run r)

/-- Remove a leading whitespace run, as `str.strip()` does on the left. -/
def dropLead : List (List Char) → List (List Char)
  | [] => []
  | r :: rest => if runWs r then rest else r :: rest

/-- Remove a trailing whitespace run, as `str.strip()` does on the right. -/
def dropTrail : List (List Char) → List (List Char)
  | [] => []
  | [r] => if runWs r then [] else [r]
  | r :: s :: rest => r :: dropTrail (s :: rest)

/-- The head run, if any, is a non-whitespace run. -/
def HeadWord (rs : List (List Char)) : Prop :=
  ∀ r ∈ rs.head?, runWs r = false

/-- The last run, if any, is a non-whitespace run. -/
def LastWord (rs : List (List Char)) : Prop :=
  ∀ r ∈ rs.getLast?, runWs r = false

/-! ### Concatenation of run decompositions

`runsOf (u ++ v)` merges the last run of `u` with the first run of `v`
when they have the same whitespace-ness. -/

/-- Merge two run lists at their junction. -/
def mergeRuns : List (List Char) → List (List Char) → List (List Char)
  | [], rv => rv
  | [r], [] => [r]
  | [r], s :: rv' =>
    if runWs r = runWs s then (r ++ s) :: rv' else r :: s :: rv'
  | r :: r' :: ru', rv => r :: mergeRuns (r' :: ru') rv

/-- The length contributed by a run list to the cleaned string: words count
fully, interior whitespace runs count their normalized length, a trailing
whitespace run counts zero. -/
def fRuns : List (List Char) → Nat
  | [] => 0
  | r :: rest =>
    if runWs r then (if rest = [] then 0 else (normRun r).length + fRuns rest)
    else (normRun r).length + fRuns rest

/-! ### The DOM model

An lxml element carries a tag, attributes, leading text, trailing text
(`tail`, owned by the parent in lxml's data model) and children.
`text_content()` is the leading text followed by each child's text content
and tail. -/

inductive Elem : Type where
  | mk (tag : String) (attrs : List (String × String)) (text : List Char)
      (tail : List Char) (children : List Elem)

def Elem.tag : Elem → String
  | .mk t _ _ _ _ => t

def Elem.attrs : Elem → List (String × String)
  | .mk _ a _ _ _ => a

def Elem.text : Elem → List Char
  | .mk _ _ tx _ _ => tx

def Elem.tail : Elem → List Char
  | .mk _ _ _ tl _ => tl

def Elem.children : Elem → List Elem
  | .mk _ _ _ _ ch => ch

mutual

/-- `elem.text_content()`. -/
def textContent : Elem → List Char
  | .mk _ _ tx _ ch => tx ++ textContentList ch

def textContentList : List Elem → List Char
  | [] => []
  | c :: cs => (textContent c ++ c.tail) ++ textContentList cs

end

mutual

/-- `node.findall('.//tag')`: all proper descendants with the given tag,
in document order. -/
def findTag (t : String) : Elem → List Elem
  | .mk _ _ _ _ ch => findTagList t ch

def findTagList (t : String) : List Elem → List Elem
  | [] => []
  | c :: cs =>
    ((if c.tag = t then [c] else []) ++ findTag t c) ++ findTagList t cs

end

/-- `text_length(i) = len(clean(i.text_content() or ""))`. -/
def text_length (e : Elem) : Nat :=
  (clean (textContent e)).length

/-- `get_link_density`: total cleaned text length of the `<a>` descendants
divided by `max(text_length(elem), 1)`, as a real (rational) number. -/
def get_link_density (e : Elem) : ℚ :=
  (((findTag "a" e).map text_length).sum : ℚ)
    / (max (text_length e) 1 : ℕ)

/-- No `<a>` descendant has a further `<a>` descendant (true of any DOM
produced by an HTML parser, which never nests anchors). -/
def NoNestedAnchors (e : Elem) : Prop :=
  ∀ a ∈ findTag "a" e, findTag "a" a = []

/-- A nested-anchor element: `<div><a><a>x</a></a></div>`. -/
def aInner : Elem := .mk "a" [] ['x'] [] []

def aOuter : Elem := .mk "a" [] [] [] [aInner]

def elNested : Elem := .mk "div" [] [] [] [aOuter]

/-- A plain element with text and no links. -/
def elPlain : Elem := .mk "div" [] ['h', 'i'] [] []

/-! ### `Document.strip` — removing a configured domain string from
meta content -/

/-- `str.lower()` character-wise. -/
def lowerL (l : List Char) : List Char := l.map Char.toLower

/-- `Document.strip(text, strip)` from the source:

    if strip is not None and text is not None:
        strip_len = len(strip)
        if text.lower().startswith(strip):
            text = text[strip_len:]
        if text.lower().endswith(strip):
            text = text[:len(text) - strip_len]
    return text

Note the lowercasing is applied to `text` only, never to `strip`. -/
def stripDomain (text strip : Option (List Char)) : Option (List Char) :=
  match strip, text with
  | some st, some tx =>
    let tx1 := if st.isPrefixOf (lowerL tx) then tx.drop st.length else tx
    let tx2 := if st.isSuffixOf (lowerL tx1) then
        tx1.take (tx1.length - st.length) else tx1
    some tx2
  | _, tx => tx

/-- Modelled from the spec's words, for comparison: "string stripped
case-insensitively from both ends of each meta-content" — i.e. both the
content and the domain are compared after lowercasing. -/
def stripDomainSpec (text strip : Option (List Char)) : Option (List Char) :=
  match strip, text with
  | some st, some tx =>
    let tx1 := if (lowerL st).isPrefixOf (lowerL tx) then
        tx.drop st.length else tx
    let tx2 := if (lowerL st).isSuffixOf (lowerL tx1) then
        tx1.take (tx1.length - st.length) else tx1
    some tx2
  | _, tx => tx

/-! ### The Meta Collector (`collectMetaTags` / `addMeta` / `addProps`) -/

/-- Scan for a closing `>` after an opening `<`; the regex `<.*?>` cannot
match across a newline (`.` never matches `\n`). Returns the remainder
after the tag, or `none` when no tag closes on this line. -/
def dropTag : List Char → Option (List Char)
  | [] => none
  | c :: cs => if c = '>' then some cs else if c = '\n' then none
      else dropTag cs

/-- `re.sub("<.*?>", '', s)`: delete every non-greedy `<...>` group. -/
def stripTags : List Char → List Char
  | [] => []
  | c :: cs =>
    if h : c = '<' then
      match hm : dropTag cs with
      | some rest => stripTags rest
      | none => c :: stripTags cs
    else c :: stripTags cs
termination_by l => l.length
decreasing_by
  · have hlen : ∀ cs0 : List Char, dropTag cs0 = some rest →
        rest.length ≤ cs0.length := by
      intro cs0
      induction cs0 with
      | nil => intro h0; rw [dropTag] at h0; exact absurd h0 (by simp)
      | cons c0 cs0 ih =>
        intro h0
        rw [dropTag] at h0
        split at h0
        · have hr : cs0 = rest := by simpa using h0
          subst hr; simp
        · split at h0
          · exact absurd h0 (by simp)
          · exact le_trans (ih h0) (by simp)
    simpa using Nat.lt_succ_of_le (hlen _ hm)
  · simp
  · simp

/-- The recognized `<meta>` property names. -/
def METAPROPS : List (List Char) :=
  ["description".data, "title".data, "keywords".data, "og:title".data,
   "og:description".data, "twitter:description".data, "twitter:title".data]

/-- The recognized `itemprop` names. -/
def ITEMPROPS : List (List Char) :=
  ["model".data, "brand".data, "description".data, "name".data]

/-- Tags whose descendants are never mined for microdata. -/
def BADTAGS : List String :=
  ["footer", "header", "nav", "aside", "script", "style"]

/-- A `<meta>` element as the collector reads it: its `name`, `property`
and `content` attributes. -/
structure MetaTag where
  nameAttr : Option (List Char)
  propAttr : Option (List Char)
  contentAttr : Option (List Char)

/-- A constructed `<p class="econtextmax meta {prop}">{content}</p>`
fragment. -/
structure Frag where
  cls : List Char
  content : List Char
deriving DecidableEq

/-- `prop[prop.find(':')+1:]`: the substring after the first `:`, or the
whole string when there is none (`find` returns `-1`). -/
def dedupeKeyL (p : List Char) : List Char :=
  if p.contains ':' then (p.dropWhile (fun c => !(c = ':'))).tail else p

/-- Mutable state of one `collectMetaTags` call: the dedupe dict, the local
variable `meta` of `addMeta` (unbound at entry, modelled as `none`), and the
children of the meta container (`base.insert(0, _)` prepends; every insert
in the proved runs is of a freshly built fragment, so a plain cons is
faithful). -/
structure MetaState where
  dedupe : List (List Char × Option (List Char))
  metaVar : Option Frag
  base : List Frag

/-- `dedupe.get(k)`: `None` both for a missing key and for a stored
`None`. -/
def lookupD (d : List (List Char × Option (List Char))) (k : List Char) :
    Option (List Char) :=
  (d.lookup k).join

/-- One iteration of the `addMeta` loop.  The `try`/`except` swallows only
the fragment construction; the following `base.insert(0, meta)` still runs,
and raises `NameError` when `meta` has never been bound. -/
def addMetaStep (fragOk : List Char → List Char → Bool)
    (domain : Option (List Char)) (st : MetaState) (m : MetaTag) :
    Except Unit MetaState :=
  match m.nameAttr.or m.propAttr with
  | none => .ok st
  | some prop =>
    if prop ∈ METAPROPS then
      let metacontent := stripDomain m.contentAttr domain
      if lookupD st.dedupe (dedupeKeyL prop) ≠ metacontent then
        -- try: meta = fragment_fromstring(...); except: pass
        let newMeta : Option Frag :=
          match metacontent with
          | none => none  -- re.sub(..., None) raises TypeError, swallowed
          | some mc =>
            if fragOk prop (stripTags mc) then some ⟨prop, stripTags mc⟩
            else none
        let metaVar := newMeta.or st.metaVar
        -- base.insert(0, meta) — outside the try
        match metaVar with
        | none => .error ()  -- NameError: meta referenced before assignment
        | some f =>
          .ok ⟨(dedupeKeyL prop, metacontent) :: st.dedupe, some f,
            f :: st.base⟩
      else .ok ⟨(dedupeKeyL prop, metacontent) :: st.dedupe, st.metaVar,
          st.base⟩
    else .ok st

/-- The `addMeta` loop over all `<meta>` descendants. -/
def addMeta (fragOk : List Char → List Char → Bool)
    (domain : Option (List Char)) (st : MetaState) :
    List MetaTag → Except Unit MetaState
  | [] => .ok st
  | m :: ms => do
    let st' ← addMetaStep fragOk domain st m
    addMeta fragOk domain st' ms

/-- An `[itemprop]` element as `addProps` reads it. -/
structure ItemElem where
  itemprop : List Char
  contentAttr : Option (List Char)
  textContentV : List Char
  ancestorTags : List String

/-- `elem.attrib.get('content', elem.text_content().strip())`. -/
def itemContent (it : ItemElem) : List Char :=
  it.contentAttr.getD (stripWs it.textContentV)

/-- One iteration of the `addProps` loop (no `try`/`except` here). -/
def addPropsStep (fragOk : List Char → List Char → Bool) (st : MetaState)
    (it : ItemElem) : Except Unit MetaState :=
  if it.itemprop ∈ ITEMPROPS then
    if (it.ancestorTags.filter (fun t => t ∈ BADTAGS)) ≠ [] then .ok st
    else
      let metacontent := itemContent it
      if lookupD st.dedupe it.itemprop ≠ some metacontent then
        if fragOk it.itemprop (stripTags metacontent) then
          .ok ⟨(it.itemprop, some metacontent) :: st.dedupe, st.metaVar,
            ⟨it.itemprop, stripTags metacontent⟩ :: st.base⟩
        else .error ()  -- fragment_fromstring failure propagates here
      else .ok ⟨(it.itemprop, some metacontent) :: st.dedupe, st.metaVar,
          st.base⟩
  else .ok st

def addProps (fragOk : List Char → List Char → Bool) (st : MetaState) :
    List ItemElem → Except Unit MetaState
  | [] => .ok st
  | it :: its => do
    let st' ← addPropsStep fragOk st it
    addProps fragOk st' its

/-- `collectMetaTags`: a fresh container and dedupe dict, the meta pass,
then the itemprop pass — both sharing the same dedupe dict and container. -/
def collectMetaTags (fragOk : List Char → List Char → Bool)
    (domain : Option (List Char)) (metas : List MetaTag)
    (items : List ItemElem) : Except Unit MetaState := do
  let st1 ← addMeta fragOk domain ⟨[], none, []⟩ metas
  addProps fragOk st1 items

/-! ### Class/id regex weights and the paragraph scorer -/

/-- `positiveRe`, as an ordered list of literal alternatives. -/
def positiveTokens : List (List Char) :=
  ["econtextmax".data, "and".data, "article".data, "body".data,
   "column".data, "content".data, "main".data, "shadow".data,
   "product".data, "feature".data, "detail".data, "spec".data,
   "about".data, "itemprop".data, "text".data, "story".data,
   "story-content".data]

/-- `negativeRe`, as an ordered list of literal alternatives. -/
def negativeTokens : List (List Char) :=
  ["ad".data, "ad-break".data, "agegate".data, "cart".data,
   "citation".data, "combx".data, "comment".data, "community".data,
   "disclaimer".data, "disqus".data, "extra".data, "feedback".data,
   "foot".data, "form".data, "fulfillment".data, "header".data,
   "hidden".data, "item".data, "legal".data, "menu".data, "modal".data,
   "nav".data, "pager".data, "pagination".data, "placeholder".data,
   "polic".data, "popup".data, "qa".data, "question".data,
   "reference".data, "remark".data, "return".data, "review".data,
   "rss".data, "shoutbox".data, "sidebar".data, "slideshow".data,
   "small".data, "sponsor".data, "toc".data, "tweet".data,
   "twitter".data, "video".data, "warranty".data]

/-- `re.findall` with an alternation of literals: at each position try the
alternatives in order (Python alternation is first-match, not longest),
consume the match, and continue after it; otherwise advance one character.
The haystack is pre-lowercased (the regexes carry `re.I`). -/
def countMatches (tokens : List (List Char)) : List Char → Nat
  | [] => 0
  | c :: cs =>
    match tokens.find? (fun t => t.isPrefixOf (c :: cs)) with
    | some t => 1 + countMatches tokens (cs.drop (t.length - 1))
    | none => countMatches tokens cs
termination_by l => l.length
decreasing_by
  · simp only [List.length_cons, List.length_drop]
    omega
  · simp

/-- The weight contribution of one attribute value (`class` or `id`):
`re.search` succeeds exactly when `findall` is nonempty for a literal
alternation. -/
def attrWeight (s : List Char) : ℤ :=
  let ls := lowerL s
  (if 0 < countMatches negativeTokens ls then
      -(35 : ℤ) * countMatches negativeTokens ls else 0)
  + (if 0 < countMatches positiveTokens ls then
      (25 : ℤ) * countMatches positiveTokens ls else 0)

/-- `class_weight(e)`: `e.get('class', None)` and `e.get('id', None)` are
truthy only when present and nonempty. -/
def class_weight (e : Elem) : ℤ :=
  (match e.attrs.lookup "class" with
   | some s => if s.data ≠ [] then attrWeight s.data else 0
   | none => 0)
  + (match e.attrs.lookup "id" with
     | some s => if s.data ≠ [] then attrWeight s.data else 0
     | none => 0)

/-- `score_node(elem)`: the initial candidate score, from the class weight
and the (lowercased) tag. -/
def score_node (e : Elem) : ℚ :=
  let name := lowerL e.tag.data
  (class_weight e : ℚ)
  + (if name = "div".data then 5
     else if name ∈ ["pre".data, "td".data, "blockquote".data] then 3
     else if name ∈ ["address".data, "ol".data, "ul".data, "dl".data,
        "dd".data, "dt".data, "li".data, "form".data] then -3
     else if name ∈ ["h1".data, "h2".data, "h3".data, "h4".data,
        "h5".data, "h6".data, "th".data] then -5
     else 0)

/-- One scored paragraph-like element (`<p>`, `<pre>`, `<td>`) as the
scorer's loop body consumes it: its raw `text_content()`, its parent
(which exists — elements with no parent are skipped by the walk) and its
optional grandparent, keyed by element identity. -/
structure Para where
  raw : List Char
  parentKey : Nat
  parent : Elem
  gparent : Option (Nat × Elem)

/-- Add `delta` to the score of candidate `k`. -/
def bumpC (cands : List (Nat × ℚ)) (k : Nat) (delta : ℚ) :
    List (Nat × ℚ) :=
  cands.map (fun kv => if kv.1 = k then (kv.1, kv.2 + delta) else kv)

/-- The per-paragraph `content_score`:
`1 + len(inner.split(',')) + min(len(inner)/100, 3)`, where
`len(inner.split(','))` is the number of comma-separated pieces, i.e. the
comma count plus one. -/
def paragraphScore (inner : List Char) : ℚ :=
  1 + ((inner.count ',') + 1 : ℕ)
    + min ((inner.length : ℚ) / 100) 3

/-- The body of the `score_paragraphs` main loop for one paragraph. -/
def scoreStep (minLen : Nat) (cands : List (Nat × ℚ)) (p : Para) :
    List (Nat × ℚ) :=
  let inner := clean p.raw
  if inner.length < minLen then cands
  else
    let c1 := if (cands.lookup p.parentKey).isSome then cands
      else cands ++ [(p.parentKey, score_node p.parent)]
    let c2 := match p.gparent with
      | some (gk, g) =>
        if (c1.lookup gk).isSome then c1 else c1 ++ [(gk, score_node g)]
      | none => c1
    let contentScore := paragraphScore inner
    let c3 := bumpC c2 p.parentKey contentScore
    match p.gparent with
    | some (gk, _) => bumpC c3 gk (contentScore / 2)
    | none => c3

/-- The main loop of `score_paragraphs` over all paragraph-like
elements. -/
def scoreParagraphsLoop (minLen : Nat) (paras : List Para) :
    List (Nat × ℚ) :=
  paras.foldl (scoreStep minLen) []

/-- The final scaling pass: every candidate's score is multiplied by
`1 - link_density`, in insertion order.  (`ldOf` gives each candidate
element's link density; candidates are keyed by element identity.) -/
def scaleCandidates (ldOf : Nat → ℚ) (cands : List (Nat × ℚ)) :
    List (Nat × ℚ) :=
  cands.map (fun kv => (kv.1, kv.2 * (1 - ldOf kv.1)))

/-- `score_paragraphs`: the scoring loop followed by link-density
scaling. -/
def score_paragraphs (minLen : Nat) (ldOf : Nat → ℚ) (paras : List Para) :
    List (Nat × ℚ) :=
  scaleCandidates ldOf (scoreParagraphsLoop minLen paras)

/-- The parent element of the counterexample paragraph: a bare `<div>`. -/
def divX : Elem := .mk "div" [] [] [] []

/-- A paragraph of 100 `'a'`s (no commas, no whitespace). -/
def paraX : Para := ⟨List.replicate 100 'a', 0, divX, none⟩

/-! ### The sanitizer's conditional cleaning of `<table>`/`<ul>`/`<div>` -/

/-- The removal reasons of sanitize's rule chain, in source order. -/
inductive CleanReason where
  | tooManyImages | moreLisThanPs | tooManyInputs | tooShort
  | linkDenseLowWeight | linkDenseHighWeight | embedHeavy
deriving DecidableEq

/-- What the conditional-cleaning loop body decides for one element. -/
inductive CleanDecision where
  | droppedNegative                  -- `weight + content_score < 0`
  | kept                             -- no removal rule fired
  | removed (r : CleanReason)        -- `el.drop_tree()`
  | rescued (allowed : List Elem)    -- removal cancelled by the rescue

/-- The sibling lengths gathered by the rescue: the source's `i =+ 1`
assigns `1`, so each direction breaks after its first non-empty sibling
(`text_length > 0`); following siblings are examined first. -/
def sibLens (follow precede : List Elem) : List Nat :=
  ((follow.find? (fun s => !(text_length s == 0))).toList
    ++ (precede.find? (fun s => !(text_length s == 0))).toList).map
    text_length

/-- The body of the sanitizer's conditional-cleaning loop for one element
(`sanitize`, lines 530–646).  `contentScore` is
`candidates[el]['content_score']` when present and `0` otherwise.  The
float literals `0.2` and `0.5` are modelled as the exact rationals.  In the
source the sibling-rescue block is indented inside the final `elif` — the
embed rule — so it runs only when that rule fires. -/
def conditionalCleanStep (minLen : Nat) (contentScore : ℚ) (el : Elem)
    (follow precede : List Elem) : CleanDecision :=
  let weight := class_weight el
  if (weight : ℚ) + contentScore < 0 then .droppedNegative
  else if (textContent el).count ',' < 10 then
    let pCount := (findTag "p" el).length
    let imgCount := (findTag "img" el).length
    let liCount : ℤ := ((findTag "li" el).length : ℤ) - 100
    let inputCount := (findTag "input" el).length
    let embedCount := (findTag "embed" el).length
    let contentLength := text_length el
    let linkDensity := get_link_density el
    if 0 < pCount ∧ pCount < imgCount then .removed .tooManyImages
    else if (pCount : ℤ) < liCount ∧ el.tag ≠ "ul" ∧ el.tag ≠ "ol" then
      .removed .moreLisThanPs
    else if (pCount : ℚ) / 3 < (inputCount : ℚ) then .removed .tooManyInputs
    else if contentLength < minLen ∧ (imgCount = 0 ∨ 2 < imgCount) then
      .removed .tooShort
    else if weight < 25 ∧ 2/10 < linkDensity then .removed .linkDenseLowWeight
    else if 25 ≤ weight ∧ 5/10 < linkDensity then
      .removed .linkDenseHighWeight
    else if (embedCount = 1 ∧ contentLength < 75) ∨ 1 < embedCount then
      -- the sibling rescue, nested inside this elif in the source
      let sibs := sibLens follow precede
      if sibs ≠ [] ∧ 1000 < sibs.sum then
        .rescued (findTag "table" el ++ findTag "ul" el ++ findTag "div" el)
      else .removed .embedHeavy
    else .kept
  else .kept

/-- A short bare `<div>` with text `"hello"`: removal rule 4 (shorter than
`min_text_length`, no images) fires on it. -/
def elShort : Elem := .mk "div" [] "hello".data [] []

/-- A sibling `<p>` carrying 2000 characters of text. -/
def bigP : Elem := .mk "p" [] (List.replicate 2000 'a') [] []

/-- The driver state `summary` threads through its `while True` loop
(readability.py 225–282), with the per-pass pipeline (parse, drop bad
tags, prune unlikely candidates when ruthless, transform divs, score,
select, extract, sanitize) abstracted as functions of the `ruthless`
flag.  `best` is `select_best_candidate` on the pass's candidates,
`cleaned` is `sanitize(get_article(...))`, `body`/`root` are
`self.html.find('body')`/`self.html`, and `sanitizeEl` is `sanitize` on
that fallback element. -/
structure Driver (α : Type) where
  best : Bool → Option α
  cleaned : Bool → α → List Char
  body : Option Elem
  root : Elem
  sanitizeEl : Elem → List Char
  retryLength : Nat

/-- One iteration of `summary`'s loop: `some out` means `break` with the
cleaned article `out`, `none` means `continue` (which always sets
`ruthless = False`).  With a best candidate, the result is kept unless
`ruthless and not of_acceptable_length`; without one, a ruthless pass
retries and a lenient pass falls back to the body (or the document root)
and breaks, since the length check is guarded by `ruthless`. -/
def summaryPass {α : Type} (P : Driver α) (ruthless : Bool) :
    Option (List Char) :=
  match P.best ruthless with
  | some c =>
    let cleaned := P.cleaned ruthless c
    if ruthless then
      if cleaned.length < P.retryLength then none else some cleaned
    else some cleaned
  | none =>
    if ruthless then none
    else
      some (P.sanitizeEl (match P.body with | some b => b | none => P.root))

/-- `summary`'s `while True` loop with fuel: each `continue` recurses with
`ruthless = False`. -/
def summaryLoop {α : Type} (P : Driver α) : Nat → Bool → Option (List Char)
  | 0, _ => none
  | n + 1, ruthless =>
    match summaryPass P ruthless with
    | some out => some out
    | none => summaryLoop P n false

/-- One candidate entry as `select_best_candidate` consumes it: the
element (by identity key) and its `content_score`. -/
structure Cand where
  key : Nat
  score : ℚ

/-- `select_best_candidate` (readability.py 334–344): sort the candidate
values by `content_score` descending (Python's `sorted` with
`reverse=True` is a deterministic stable sort) and return the first,
`None` when there are no candidates.  The `[:5]` loop in the source only
binds a variable for a commented-out debug log. -/
def select_best_candidate (cs : List Cand) : Option Cand :=
  (cs.mergeSort (fun a b => b.score ≤ a.score)).head?

theorem flatten_runsOf (l : List Char) : (runsOf l).flatten = l := by
  induction l using runsOf.induct with
  | case1 => simp [runsOf]
  | case2 c cs ih =>
    rw [runsOf, List.flatten_cons, ih]
    simp

theorem head_dropWhile_not {p : Char → Bool} {l : List Char} {d : Char}
    (h : (l.dropWhile p).head? = some d) : p d = false := by
  induction l with
  | nil => simp [List.dropWhile] at h
  | cons c cs ih =>
    rw [List.dropWhile_cons] at h
    split at h
    · exact ih h
    · simp_all

theorem nonempty_of_runsOk_cons {s : List Char} {rest : List (List Char)}
    (h : RunsOk (s :: rest)) : s ≠ [] ∧ Homog s := by
  cases h with
  | single h hh => exact ⟨h, hh⟩
  | cons h hh _ _ => exact ⟨h, hh⟩

theorem runWs_of_head {s : List Char} {d : Char}
    (hhom : Homog s) (hd : s.head? = some d) : runWs s = isWsC d := by
  have hmem : d ∈ s := List.mem_of_mem_head? (by simpa using hd)
  rcases hc : isWsC d with _ | _
  · rw [runWs, List.all_eq_false.mpr ⟨d, hmem, by simp [hc]⟩]
  · rcases hhom with hws | hnws
    · rw [runWs, List.all_eq_true.mpr (fun x hx => hws x hx)]
    · exact absurd (hnws d hmem) (by simp [hc])

theorem runsOk_runsOf (l : List Char) : RunsOk (runsOf l) := by
  induction l using runsOf.induct with
  | case1 => rw [runsOf]; exact RunsOk.nil
  | case2 c cs ih =>
    rw [runsOf]
    have hhomog : Homog (c :: cs.takeWhile (fun d => isWsC d == isWsC c)) := by
      rcases hc : isWsC c with _ | _
      · right
        intro x hx
        rcases List.mem_cons.mp hx with rfl | hx
        · exact hc
        · have := List.mem_takeWhile_imp hx
          simpa [hc] using this
      · left
        intro x hx
        rcases List.mem_cons.mp hx with rfl | hx
        · exact hc
        · have := List.mem_takeWhile_imp hx
          simpa [hc] using this
    rcases hrest : runsOf (cs.dropWhile (fun d => isWsC d == isWsC c)) with
      _ | ⟨s, rest⟩
    · exact RunsOk.single (by simp) hhomog
    · refine RunsOk.cons (by simp) hhomog ?_ (hrest ▸ ih)
      obtain ⟨hsne, hshom⟩ := nonempty_of_runsOk_cons (hrest ▸ ih)
      obtain ⟨d, ds, rfl⟩ := List.exists_cons_of_ne_nil hsne
      have hhd : (cs.dropWhile (fun d => isWsC d == isWsC c)).head? = some d := by
        have hfl := flatten_runsOf (cs.dropWhile (fun d => isWsC d == isWsC c))
        rw [hrest] at hfl
        rw [← hfl]
        simp
      have hd : (isWsC d == isWsC c) = false := head_dropWhile_not hhd
      have hruns : runWs (d :: ds) = isWsC d := runWs_of_head hshom (by simp)
      have hrunc : runWs (c :: cs.takeWhile (fun d => isWsC d == isWsC c))
          = isWsC c := runWs_of_head hhomog (by simp)
      rw [hruns, hrunc]
      rcases h1 : isWsC c with _ | _ <;> rcases h2 : isWsC d with _ | _ <;>
        simp_all

theorem sptab_ws {c : Char} (h : isSpTab c = true) : isWsC c = true := by
  simp only [isSpTab, Bool.or_eq_true, decide_eq_true_eq] at h
  rcases h with rfl | rfl <;> simp [isWsC]

theorem nonws_nonsptab {c : Char} (h : isWsC c = false) : isSpTab c = false := by
  by_contra hc
  rw [sptab_ws (by simpa using hc)] at h
  exact absurd h (by simp)

theorem sub1_nil : sub1 [] = [] := by rw [sub1]

theorem sub1_cons (c : Char) (cs : List Char) :
    sub1 (c :: cs) =
      if isWsC c then
        (if (c :: cs.takeWhile isWsC).contains '\n' then ['\n']
         else c :: cs.takeWhile isWsC) ++ sub1 (cs.dropWhile isWsC)
      else c :: sub1 cs := by
  rw [sub1]

theorem sub2_nil : sub2 [] = [] := by rw [sub2]

theorem sub2_cons (c : Char) (cs : List Char) :
    sub2 (c :: cs) =
      if isSpTab c then
        (if cs.takeWhile isSpTab = [] then [c] else [' '])
          ++ sub2 (cs.dropWhile isSpTab)
      else c :: sub2 cs := by
  rw [sub2]

theorem sub1_append_nonws {w X : List Char} (hw : ∀ c ∈ w, isWsC c = false) :
    sub1 (w ++ X) = w ++ sub1 X := by
  induction w with
  | nil => simp
  | cons c cs ih =>
    rw [List.cons_append, sub1_cons, if_neg (by simp [hw c (by simp)]),
      List.cons_append, List.cons.injEq]
    exact ⟨rfl, ih (fun x hx => hw x (List.mem_cons_of_mem _ hx))⟩

theorem takeWhile_stop {p : Char → Bool} {X : List Char}
    (hX : ∀ d ∈ X.head?, p d = false) : X.takeWhile p = [] := by
  cases X with
  | nil => rfl
  | cons d ds => exact List.takeWhile_cons_of_neg (by simpa using hX d (by simp))

theorem dropWhile_stop {p : Char → Bool} {X : List Char}
    (hX : ∀ d ∈ X.head?, p d = false) : X.dropWhile p = X := by
  cases X with
  | nil => rfl
  | cons d ds => exact List.dropWhile_cons_of_neg (by simpa using hX d (by simp))

theorem takeWhile_append_stop {p : Char → Bool} {cs X : List Char}
    (hX : ∀ d ∈ X.head?, p d = false) :
    (cs ++ X).takeWhile p = cs.takeWhile p := by
  rw [List.takeWhile_append]
  split
  · next h =>
    rw [takeWhile_stop hX, List.append_nil,
      (List.takeWhile_prefix p).eq_of_length h]
  · rfl

theorem dropWhile_append_stop {p : Char → Bool} {cs X : List Char}
    (hX : ∀ d ∈ X.head?, p d = false) :
    (cs ++ X).dropWhile p = cs.dropWhile p ++ X := by
  rw [List.dropWhile_append]
  split
  · next h =>
    rw [List.isEmpty_iff.mp h, List.nil_append, dropWhile_stop hX]
  · rfl

theorem sub1_append_head {X : List Char} (hX : ∀ d ∈ X.head?, isWsC d = false) :
    ∀ (r : List Char), sub1 (r ++ X) = sub1 r ++ sub1 X := by
  suffices h : ∀ n (r : List Char), r.length ≤ n →
      sub1 (r ++ X) = sub1 r ++ sub1 X by
    intro r; exact h r.length r le_rfl
  intro n
  induction n with
  | zero =>
    intro r hr
    rw [List.length_eq_zero.mp (Nat.le_zero.mp hr), List.nil_append, sub1_nil,
      List.nil_append]
  | succ n ih =>
    intro r hr
    cases r with
    | nil => rw [List.nil_append, sub1_nil, List.nil_append]
    | cons c cs =>
      rcases hc : isWsC c with _ | _
      · rw [List.cons_append, sub1_cons, if_neg (by simp [hc]), sub1_cons,
          if_neg (by simp [hc]), List.cons_append, List.cons.injEq]
        exact ⟨rfl, ih cs (Nat.le_of_succ_le_succ (by simpa using hr))⟩
      · rw [List.cons_append, sub1_cons, if_pos hc, sub1_cons, if_pos hc,
          takeWhile_append_stop hX, dropWhile_append_stop hX,
          List.append_assoc]
        congr 1
        exact ih (cs.dropWhile isWsC)
          (le_trans ((cs.dropWhile_sublist isWsC).length_le)
            (Nat.le_of_succ_le_succ (by simpa using hr)))

theorem sub2_append_nonsptab {w X : List Char}
    (hw : ∀ c ∈ w, isSpTab c = false) : sub2 (w ++ X) = w ++ sub2 X := by
  induction w with
  | nil => simp
  | cons c cs ih =>
    rw [List.cons_append, sub2_cons, if_neg (by simp [hw c (by simp)]),
      List.cons_append, List.cons.injEq]
    exact ⟨rfl, ih (fun x hx => hw x (List.mem_cons_of_mem _ hx))⟩

theorem sub2_append_head {X : List Char} (hX : ∀ d ∈ X.head?, isSpTab d = false) :
    ∀ (r : List Char), sub2 (r ++ X) = sub2 r ++ sub2 X := by
  suffices h : ∀ n (r : List Char), r.length ≤ n →
      sub2 (r ++ X) = sub2 r ++ sub2 X by
    intro r; exact h r.length r le_rfl
  intro n
  induction n with
  | zero =>
    intro r hr
    rw [List.length_eq_zero.mp (Nat.le_zero.mp hr), List.nil_append, sub2_nil,
      List.nil_append]
  | succ n ih =>
    intro r hr
    cases r with
    | nil => rw [List.nil_append, sub2_nil, List.nil_append]
    | cons c cs =>
      rcases hc : isSpTab c with _ | _
      · rw [List.cons_append, sub2_cons, if_neg (by simp [hc]), sub2_cons,
          if_neg (by simp [hc]), List.cons_append, List.cons.injEq]
        exact ⟨rfl, ih cs (Nat.le_of_succ_le_succ (by simpa using hr))⟩
      · rw [List.cons_append, sub2_cons, if_pos hc, sub2_cons, if_pos hc,
          takeWhile_append_stop hX, dropWhile_append_stop hX,
          List.append_assoc]
        congr 1
        exact ih (cs.dropWhile isSpTab)
          (le_trans ((cs.dropWhile_sublist isSpTab).length_le)
            (Nat.le_of_succ_le_succ (by simpa using hr)))

/-- The effect of `sub1` on a single whitespace run. -/
theorem sub1_ws {g : List Char} (hg : ∀ c ∈ g, isWsC c = true) :
    sub1 g = if g.contains '\n' then ['\n'] else g := by
  cases g with
  | nil => rw [sub1_nil]; simp
  | cons c cs =>
    rw [sub1_cons, if_pos (hg c (by simp))]
    have htw : cs.takeWhile isWsC = cs :=
      List.takeWhile_eq_self_iff.mpr
        (fun x hx => hg x (List.mem_cons_of_mem _ hx))
    have hdw : cs.dropWhile isWsC = [] := by
      have := congrArg List.length
        (List.takeWhile_append_dropWhile isWsC cs)
      rw [List.length_append, htw] at this
      have : (cs.dropWhile isWsC).length = 0 := by omega
      exact List.length_eq_zero.mp this
    rw [htw, hdw, sub1_nil]
    simp

theorem ws_of_runWs_true {s : List Char} (h : runWs s = true) :
    ∀ c ∈ s, isWsC c = true :=
  List.all_eq_true.mp h

theorem nonws_of_runWs_false {s : List Char} (hhom : Homog s)
    (h : runWs s = false) : ∀ c ∈ s, isWsC c = false := by
  rcases hhom with hws | hnws
  · rw [runWs, List.all_eq_true.mpr hws] at h
    exact absurd h (by simp)
  · exact hnws

theorem nl_not_mem_of_nonws {r : List Char}
    (h : ∀ c ∈ r, isWsC c = false) : '\n' ∉ r :=
  fun hm => absurd (h _ hm) (by simp [isWsC])

theorem sub1run_nonws {r : List Char} (h : ∀ c ∈ r, isWsC c = false) :
    sub1run r = r := by
  rw [sub1run, if_neg (by simp [nl_not_mem_of_nonws h])]

theorem sub2_eq_self_nonsptab {w : List Char}
    (hw : ∀ c ∈ w, isSpTab c = false) : sub2 w = w := by
  have := @sub2_append_nonsptab _ [] hw
  simpa [sub2_nil] using this

theorem head_flatten_runs {s : List Char} {rest : List (List Char)}
    (h : RunsOk (s :: rest)) (hws : runWs s = false) :
    ∀ d ∈ ((s :: rest).flatten).head?, isWsC d = false := by
  obtain ⟨hne, hhom⟩ := nonempty_of_runsOk_cons h
  obtain ⟨d, ds, rfl⟩ := List.exists_cons_of_ne_nil hne
  intro x hx
  have hxd : d = x := by simpa using hx
  subst hxd
  exact nonws_of_runWs_false hhom hws d (by simp)

theorem sub1_flatten {rs : List (List Char)} (h : RunsOk rs) :
    sub1 rs.flatten = (rs.map sub1run).flatten := by
  induction h with
  | nil => simp [sub1_nil]
  | single hne hhom =>
    rcases hhom with hws | hnws
    · simpa [sub1run] using sub1_ws hws
    · simpa [sub1run_nonws hnws, sub1_nil] using
        @sub1_append_nonws _ [] hnws
  | cons hne hhom halt hok ih =>
    next r s rest =>
    rcases hr : runWs r with _ | _
    · have hrnws : ∀ c ∈ r, isWsC c = false := nonws_of_runWs_false hhom hr
      rw [List.flatten_cons, sub1_append_nonws hrnws, ih]
      simp [sub1run_nonws hrnws]
    · have hsnws : runWs s = false := by
        rw [hr] at halt; simpa using halt.symm
      rw [List.flatten_cons, sub1_append_head (head_flatten_runs hok hsnws) r,
        ih]
      have hws := sub1_ws (ws_of_runWs_true hr)
      simp [hws, sub1run]

theorem sub2_flatten {rs : List (List Char)} (h : RunsOk rs) :
    sub2 rs.flatten = (rs.map (fun r => sub2 r)).flatten := by
  induction h with
  | nil => simp [sub2_nil]
  | single hne hhom => simp
  | cons hne hhom halt hok ih =>
    next r s rest =>
    rcases hr : runWs r with _ | _
    · have hrnws : ∀ c ∈ r, isWsC c = false := nonws_of_runWs_false hhom hr
      rw [List.flatten_cons,
        sub2_append_nonsptab (fun c hc => nonws_nonsptab (hrnws c hc)), ih]
      simp [sub2_eq_self_nonsptab (fun c hc => nonws_nonsptab (hrnws c hc))]
    · have hsnws : runWs s = false := by
        rw [hr] at halt; simpa using halt.symm
      have hhead : ∀ d ∈ ((s :: rest).flatten).head?, isSpTab d = false :=
        fun d hd => nonws_nonsptab (head_flatten_runs hok hsnws d hd)
      rw [List.flatten_cons, sub2_append_head hhead r, ih]
      simp

theorem head_sub2_not_sptab {l : List Char}
    (h : ∀ d ∈ l.head?, isSpTab d = false) :
    ∀ d ∈ (sub2 l).head?, isSpTab d = false := by
  cases l with
  | nil => rw [sub2_nil]; simp
  | cons c cs =>
    have hc : isSpTab c = false := by simpa using h c (by simp)
    rw [sub2_cons, if_neg (by simp [hc])]
    intro d hd
    have hcd : c = d := by simpa using hd
    subst hcd
    exact hc

theorem sub2_idem (l : List Char) : sub2 (sub2 l) = sub2 l := by
  induction l using sub2.induct with
  | case1 => rw [sub2_nil, sub2_nil]
  | case2 c cs hc ih =>
    have hrest : ∀ d ∈ (cs.dropWhile isSpTab).head?, isSpTab d = false := by
      intro d hd
      cases hdw : cs.dropWhile isSpTab with
      | nil => rw [hdw] at hd; exact absurd hd (by simp)
      | cons e es =>
        rw [hdw] at hd
        have hed : e = d := by simpa using hd
        exact hed ▸ head_dropWhile_not (by rw [hdw, List.head?_cons])
    have hs2 : ∀ d ∈ (sub2 (cs.dropWhile isSpTab)).head?, isSpTab d = false :=
      head_sub2_not_sptab hrest
    have key : ∀ x : Char, isSpTab x = true →
        sub2 (x :: sub2 (cs.dropWhile isSpTab))
          = x :: sub2 (cs.dropWhile isSpTab) := by
      intro x hx
      rw [sub2_cons, if_pos hx, takeWhile_stop hs2, dropWhile_stop hs2,
        if_pos rfl, ih, List.singleton_append]
    rw [sub2_cons, if_pos hc]
    split
    · rw [List.singleton_append, key c hc]
    · rw [List.singleton_append, key ' ' (by simp [isSpTab])]
  | case3 c cs hc ih =>
    rw [sub2_cons, if_neg (by simp [hc]), sub2_cons, if_neg (by simp [hc]), ih]

theorem mem_sub2 {l : List Char} {c : Char} (h : c ∈ sub2 l) :
    c ∈ l ∨ c = ' ' := by
  induction l using sub2.induct with
  | case1 => rw [sub2_nil] at h; simp at h
  | case2 d cs hd ih =>
    rw [sub2_cons, if_pos hd] at h
    rcases htw : cs.takeWhile isSpTab with _ | ⟨e, es⟩ <;> rw [htw] at h
    · rw [if_pos rfl, List.singleton_append] at h
      rcases List.mem_cons.mp h with rfl | h
      · exact Or.inl (by simp)
      · rcases ih h with h1 | h1
        · exact Or.inl (List.mem_cons_of_mem _
            (List.dropWhile_subset _ h1))
        · exact Or.inr h1
    · rw [if_neg (by simp), List.singleton_append] at h
      rcases List.mem_cons.mp h with rfl | h
      · exact Or.inr rfl
      · rcases ih h with h1 | h1
        · exact Or.inl (List.mem_cons_of_mem _
            (List.dropWhile_subset _ h1))
        · exact Or.inr h1
  | case3 d cs hd ih =>
    rw [sub2_cons, if_neg (by simp [hd])] at h
    rcases List.mem_cons.mp h with rfl | h
    · exact Or.inl (by simp)
    · rcases ih h with h1 | h1
      · exact Or.inl (List.mem_cons_of_mem _ h1)
      · exact Or.inr h1

theorem sub2_ne_nil {l : List Char} (h : l ≠ []) : sub2 l ≠ [] := by
  cases l with
  | nil => exact absurd rfl h
  | cons c cs =>
    rw [sub2_cons]
    split
    · split <;> simp
    · simp

theorem sub2_ws {l : List Char} (h : ∀ c ∈ l, isWsC c = true) :
    ∀ c ∈ sub2 l, isWsC c = true := by
  intro c hc
  rcases mem_sub2 hc with h1 | rfl
  · exact h c h1
  · simp [isWsC]

theorem nl_not_mem_sub2 {l : List Char} (h : '\n' ∉ l) : '\n' ∉ sub2 l := by
  intro hc
  rcases mem_sub2 hc with h1 | h1
  · exact h h1
  · exact absurd h1 (by simp)

theorem sub1run_of_not_mem_nl {r : List Char} (h : '\n' ∉ r) :
    sub1run r = r := by
  rw [sub1run, if_neg (by simpa using h)]

/-- `normRun` is idempotent on arbitrary runs. -/
theorem normRun_idem (r : List Char) : normRun (normRun r) = normRun r := by
  by_cases hnl : '\n' ∈ r
  · have h1 : sub1run r = ['\n'] := by rw [sub1run, if_pos (by simpa using hnl)]
    have h2 : normRun r = ['\n'] := by
      rw [normRun, h1, sub2_cons, if_neg (by simp [isSpTab]), sub2_nil]
    rw [h2, normRun, sub1run, if_pos (by simp), sub2_cons,
      if_neg (by simp [isSpTab]), sub2_nil]
  · have h2 : normRun r = sub2 r := by
      rw [normRun, sub1run_of_not_mem_nl hnl]
    rw [h2, normRun, sub1run_of_not_mem_nl (nl_not_mem_sub2 hnl), sub2_idem]

theorem normRun_nonws {r : List Char} (h : ∀ c ∈ r, isWsC c = false) :
    normRun r = r := by
  rw [normRun, sub1run_nonws h,
    sub2_eq_self_nonsptab (fun c hc => nonws_nonsptab (h c hc))]

theorem normRun_ws {r : List Char} (h : ∀ c ∈ r, isWsC c = true) :
    ∀ c ∈ normRun r, isWsC c = true := by
  rw [normRun, sub1run]
  split
  · intro c hc
    rcases mem_sub2 hc with h1 | rfl
    · have hcnl : c = '\n' := by simpa using h1
      simp [hcnl, isWsC]
    · simp [isWsC]
  · exact sub2_ws h

theorem normRun_ne_nil {r : List Char} (h : r ≠ []) : normRun r ≠ [] := by
  rw [normRun, sub1run]
  split
  · exact sub2_ne_nil (by simp)
  · exact sub2_ne_nil h

theorem runWs_normRun {r : List Char} (hne : r ≠ []) (hhom : Homog r) :
    runWs (normRun r) = runWs r := by
  rcases hhom with hws | hnws
  · rw [runWs, runWs, List.all_eq_true.mpr hws,
      List.all_eq_true.mpr (normRun_ws hws)]
  · rw [normRun_nonws hnws]

theorem homog_normRun {r : List Char} (hhom : Homog r) : Homog (normRun r) := by
  rcases hhom with hws | hnws
  · exact Or.inl (normRun_ws hws)
  · exact Or.inr (by rw [normRun_nonws hnws]; exact hnws)

theorem runsOk_map_normRun {rs : List (List Char)} (h : RunsOk rs) :
    RunsOk (rs.map normRun) := by
  induction h with
  | nil => exact RunsOk.nil
  | single hne hhom =>
    exact RunsOk.single (normRun_ne_nil hne) (homog_normRun hhom)
  | cons hne hhom halt hok ih =>
    next r s rest =>
    have hsne := (nonempty_of_runsOk_cons hok).1
    have hshom := (nonempty_of_runsOk_cons hok).2
    exact RunsOk.cons (normRun_ne_nil hne) (homog_normRun hhom)
      (by rw [runWs_normRun hne hhom, runWs_normRun hsne hshom]; exact halt)
      ih

theorem sub1run_ne_nil {r : List Char} (h : r ≠ []) : sub1run r ≠ [] := by
  rw [sub1run]; split <;> simp [h]

theorem sub1run_ws {r : List Char} (h : ∀ c ∈ r, isWsC c = true) :
    ∀ c ∈ sub1run r, isWsC c = true := by
  rw [sub1run]
  split
  · intro c hc
    have hcnl : c = '\n' := by simpa using hc
    simp [hcnl, isWsC]
  · exact h

theorem runWs_sub1run {r : List Char} (hne : r ≠ []) (hhom : Homog r) :
    runWs (sub1run r) = runWs r := by
  rcases hhom with hws | hnws
  · rw [runWs, runWs, List.all_eq_true.mpr hws,
      List.all_eq_true.mpr (sub1run_ws hws)]
  · rw [sub1run_nonws hnws]

theorem homog_sub1run {r : List Char} (hhom : Homog r) : Homog (sub1run r) := by
  rcases hhom with hws | hnws
  · exact Or.inl (sub1run_ws hws)
  · exact Or.inr (by rw [sub1run_nonws hnws]; exact hnws)

theorem runsOk_map_sub1run {rs : List (List Char)} (h : RunsOk rs) :
    RunsOk (rs.map sub1run) := by
  induction h with
  | nil => exact RunsOk.nil
  | single hne hhom =>
    exact RunsOk.single (sub1run_ne_nil hne) (homog_sub1run hhom)
  | cons hne hhom halt hok ih =>
    have hsne := (nonempty_of_runsOk_cons hok).1
    have hshom := (nonempty_of_runsOk_cons hok).2
    exact RunsOk.cons (sub1run_ne_nil hne) (homog_sub1run hhom)
      (by rw [runWs_sub1run hne hhom, runWs_sub1run hsne hshom]; exact halt)
      ih

/-- The composite `sub2 ∘ sub1` acts run-wise. -/
theorem n_flatten {rs : List (List Char)} (h : RunsOk rs) :
    sub2 (sub1 rs.flatten) = (rs.map normRun).flatten := by
  rw [sub1_flatten h, sub2_flatten (runsOk_map_sub1run h), List.map_map]
  rfl

theorem runsOk_tail {r : List Char} {rest : List (List Char)}
    (h : RunsOk (r :: rest)) : RunsOk rest := by
  cases h with
  | single => exact RunsOk.nil
  | cons _ _ _ hok => exact hok

theorem runsOk_dropLead {rs : List (List Char)} (h : RunsOk rs) :
    RunsOk (dropLead rs) := by
  cases rs with
  | nil => exact h
  | cons r rest =>
    rw [dropLead]
    split
    · exact runsOk_tail h
    · exact h

theorem dropTrail_shape (s : List Char) (rest : List (List Char)) :
    dropTrail (s :: rest) = [] ∨ ∃ Z, dropTrail (s :: rest) = s :: Z := by
  cases rest with
  | nil =>
    rw [dropTrail]
    split
    · exact Or.inl rfl
    · exact Or.inr ⟨[], rfl⟩
  | cons t ts => exact Or.inr ⟨dropTrail (t :: ts), by rw [dropTrail]⟩

theorem runsOk_dropTrail {rs : List (List Char)} (h : RunsOk rs) :
    RunsOk (dropTrail rs) := by
  induction h with
  | nil => exact RunsOk.nil
  | single hne hhom =>
    rw [dropTrail]
    split
    · exact RunsOk.nil
    · exact RunsOk.single hne hhom
  | cons hne hhom halt hok ih =>
    next r s rest =>
    rw [dropTrail]
    rcases dropTrail_shape s rest with hz | ⟨Z, hz⟩
    · rw [hz]; exact RunsOk.single hne hhom
    · rw [hz]; exact RunsOk.cons hne hhom halt (hz ▸ ih)

theorem dropWhile_flatten_norm {rs : List (List Char)} (h : RunsOk rs) :
    ((rs.map normRun).flatten).dropWhile isWsC
      = ((dropLead rs).map normRun).flatten := by
  cases rs with
  | nil => simp [dropLead]
  | cons r rest =>
    obtain ⟨hne, hhom⟩ := nonempty_of_runsOk_cons h
    rw [List.map_cons, List.flatten_cons, dropLead]
    rcases hr : runWs r with _ | _
    · have hrnws : ∀ c ∈ r, isWsC c = false := nonws_of_runWs_false hhom hr
      have hnorm : normRun r = r := normRun_nonws hrnws
      rw [if_neg (by simp), hnorm, List.map_cons, List.flatten_cons]
      obtain ⟨c, cs, rfl⟩ := List.exists_cons_of_ne_nil hne
      rw [List.cons_append, List.dropWhile_cons_of_neg
        (by simp [hrnws c (by simp)]), hnorm, List.cons_append]
    · have hrws : ∀ c ∈ r, isWsC c = true := ws_of_runWs_true hr
      rw [if_pos rfl,
        List.dropWhile_append_of_pos (fun c hc => normRun_ws hrws c hc)]
      cases rest with
      | nil => simp
      | cons s rest' =>
        cases h with
        | cons _ _ halt hok =>
          obtain ⟨hsne, hshom⟩ := nonempty_of_runsOk_cons hok
          have hsnws : ∀ c ∈ s, isWsC c = false := by
            apply nonws_of_runWs_false hshom
            rw [hr] at halt
            simpa using halt.symm
          have hsnorm : normRun s = s := normRun_nonws hsnws
          obtain ⟨c, cs, hccs⟩ := List.exists_cons_of_ne_nil hsne
          rw [List.map_cons, List.flatten_cons, hsnorm, hccs,
            List.cons_append, List.dropWhile_cons_of_neg
              (by simp [hsnws c (by rw [hccs]; simp)])]

theorem rdropWhile_append (p : Char → Bool) (A B : List Char) :
    (A ++ B).rdropWhile p =
      if B.rdropWhile p = [] then A.rdropWhile p else A ++ B.rdropWhile p := by
  by_cases hB : B.rdropWhile p = []
  · rw [if_pos hB]
    have hBr : (B.reverse.dropWhile p).isEmpty = true := by
      rw [List.isEmpty_iff]
      have := congrArg List.reverse hB
      rw [List.rdropWhile, List.reverse_reverse] at this
      exact this
    rw [List.rdropWhile, List.reverse_append, List.dropWhile_append,
      if_pos hBr, List.rdropWhile]
  · rw [if_neg hB]
    have hBne : B.reverse.dropWhile p ≠ [] := by
      intro hnil
      exact hB (by rw [List.rdropWhile, hnil, List.reverse_nil])
    have hBr : (B.reverse.dropWhile p).isEmpty = false := by
      rw [List.isEmpty_eq_false_iff_exists_mem]
      rcases List.exists_cons_of_ne_nil hBne with ⟨x, xs, hx⟩
      exact ⟨x, by rw [hx]; simp⟩
    rw [List.rdropWhile, List.reverse_append, List.dropWhile_append,
      if_neg (by simp [hBr]), List.reverse_append, List.reverse_reverse]
    rfl

theorem rdropWhile_flatten_norm {rs : List (List Char)} (h : RunsOk rs) :
    ((rs.map normRun).flatten).rdropWhile isWsC
      = ((dropTrail rs).map normRun).flatten := by
  induction h with
  | nil => simp [List.rdropWhile_nil, dropTrail]
  | @single r hne hhom =>
    rw [List.map_cons, List.map_nil, List.flatten_cons, List.flatten_nil,
      List.append_nil, dropTrail]
    rcases hr : runWs r with _ | _
    · have hrnws : ∀ c ∈ r, isWsC c = false :=
        nonws_of_runWs_false hhom hr
      have hnorm : normRun r = r := normRun_nonws hrnws
      rw [if_neg (by simp), hnorm, List.rdropWhile_eq_self_iff.mpr
        (fun hl => by simp [hrnws _ (List.getLast_mem hl)]),
        List.map_cons, List.map_nil, List.flatten_cons, List.flatten_nil,
        List.append_nil, hnorm]
    · have hrws : ∀ c ∈ r, isWsC c = true := ws_of_runWs_true hr
      rw [if_pos rfl, List.rdropWhile_eq_nil_iff.mpr
        (fun c hc => normRun_ws hrws c hc)]
      simp
  | @cons r s rest hne hhom halt hok ih =>
    rw [List.map_cons, List.flatten_cons, rdropWhile_append, dropTrail]
    rcases dropTrail_shape s rest with hz | ⟨Z, hz⟩
    · -- the tail normalizes away entirely: it is a single whitespace run
      have hrest : rest = [] ∧ runWs s = true := by
        cases rest with
        | nil =>
          refine ⟨rfl, ?_⟩
          rw [dropTrail] at hz
          by_contra hws
          rw [if_neg (by simpa using hws)] at hz
          exact absurd hz (by simp)
        | cons t ts => rw [dropTrail] at hz; exact absurd hz (by simp)
      obtain ⟨rfl, hsws⟩ := hrest
      have hX : ((List.map normRun [s]).flatten).rdropWhile isWsC = [] := by
        rw [List.map_cons, List.map_nil, List.flatten_cons, List.flatten_nil,
          List.append_nil]
        exact List.rdropWhile_eq_nil_iff.mpr
          (fun c hc => normRun_ws (ws_of_runWs_true hsws) c hc)
      rw [if_pos hX, hz]
      have hrnws : ∀ c ∈ r, isWsC c = false := by
        apply nonws_of_runWs_false hhom
        rw [hsws] at halt
        simpa using halt
      have hnorm : normRun r = r := normRun_nonws hrnws
      rw [hnorm, List.rdropWhile_eq_self_iff.mpr
        (fun hl => by simp [hrnws _ (List.getLast_mem hl)]),
        List.map_cons, List.map_nil, List.flatten_cons, List.flatten_nil,
        List.append_nil, hnorm]
    · -- the tail keeps at least its leading run
      have hXne : ((List.map normRun (s :: rest)).flatten).rdropWhile isWsC
          ≠ [] := by
        rw [ih, hz]
        obtain ⟨hsne, hshom⟩ := nonempty_of_runsOk_cons hok
        intro hcon
        rw [List.map_cons, List.flatten_cons] at hcon
        have := List.append_eq_nil.mp hcon
        exact normRun_ne_nil hsne this.1
      rw [if_neg hXne, ih, hz]
      simp

theorem clean_flatten {rs : List (List Char)} (h : RunsOk rs) :
    clean rs.flatten = ((dropTrail (dropLead rs)).map normRun).flatten := by
  rw [clean, stripWs, n_flatten h, dropWhile_flatten_norm h,
    rdropWhile_flatten_norm (runsOk_dropLead h)]

/-- All runs of a well-formed run list are nonempty and homogeneous. -/
theorem runsOk_mem {rs : List (List Char)} (h : RunsOk rs) :
    ∀ r ∈ rs, r ≠ [] ∧ Homog r := by
  induction h with
  | nil => simp
  | @single r hne hhom =>
    intro x hx
    have hxr : x = r := by simpa using hx
    exact hxr ▸ ⟨hne, hhom⟩
  | @cons r s rest hne hhom halt hok ih =>
    intro x hx
    rcases List.mem_cons.mp hx with rfl | hx
    · exact ⟨hne, hhom⟩
    · exact ih x hx

theorem headWord_dropLead {rs : List (List Char)} (h : RunsOk rs) :
    HeadWord (dropLead rs) := by
  cases rs with
  | nil => intro r hr; exact absurd hr (by simp [dropLead])
  | cons r rest =>
    rw [dropLead]
    rcases hr : runWs r with _ | _
    · rw [if_neg (by simp)]
      intro x hx
      have hxr : r = x := by simpa using hx
      exact hxr ▸ hr
    · rw [if_pos rfl]
      cases rest with
      | nil => intro x hx; exact absurd hx (by simp)
      | cons s rest' =>
        cases h with
        | cons _ _ halt _ =>
          intro x hx
          have hxs : s = x := by simpa using hx
          rw [hr] at halt
          exact hxs ▸ (by simpa using halt.symm)

theorem headWord_dropTrail {rs : List (List Char)} (h : HeadWord rs) :
    HeadWord (dropTrail rs) := by
  cases rs with
  | nil => simpa [dropTrail] using h
  | cons r rest =>
    cases rest with
    | nil =>
      rw [dropTrail]
      split
      · intro x hx; exact absurd hx (by simp)
      · exact h
    | cons s rest' =>
      rw [dropTrail]
      intro x hx
      have hxr : r = x := by simpa using hx
      exact hxr ▸ h r (by simp)

theorem dropLead_eq_self {rs : List (List Char)} (h : HeadWord rs) :
    dropLead rs = rs := by
  cases rs with
  | nil => rw [dropLead]
  | cons r rest => rw [dropLead, if_neg (by simp [h r (by simp)])]

theorem lastWord_dropTrail {rs : List (List Char)} (h : RunsOk rs) :
    LastWord (dropTrail rs) := by
  induction h with
  | nil => intro r hr; exact absurd hr (by simp [dropTrail])
  | @single r hne hhom =>
    rw [dropTrail]
    rcases hr : runWs r with _ | _
    · rw [if_neg (by simp)]
      intro x hx
      have hxr : r = x := by simpa using hx
      exact hxr ▸ hr
    · rw [if_pos rfl]
      intro x hx
      exact absurd hx (by simp)
  | @cons r s rest hne hhom halt hok ih =>
    rw [dropTrail]
    rcases dropTrail_shape s rest with hz | ⟨Z, hz⟩
    · -- then `rest = []` and `s` is whitespace, so `r` is a word
      have hrest : rest = [] ∧ runWs s = true := by
        cases rest with
        | nil =>
          refine ⟨rfl, ?_⟩
          rw [dropTrail] at hz
          by_contra hws
          rw [if_neg (by simpa using hws)] at hz
          exact absurd hz (by simp)
        | cons t ts => rw [dropTrail] at hz; exact absurd hz (by simp)
      rw [hz]
      intro x hx
      have hxr : r = x := by simpa using hx
      rw [hrest.2] at halt
      exact hxr ▸ (by simpa using halt)
    · rw [hz]
      intro x hx
      rw [List.getLast?_cons_cons] at hx
      exact (hz ▸ ih) x (hz ▸ hx)

theorem dropTrail_eq_self {rs : List (List Char)} (h : LastWord rs) :
    dropTrail rs = rs := by
  induction rs with
  | nil => rw [dropTrail]
  | cons r rest ih =>
    cases rest with
    | nil =>
      rw [dropTrail, if_neg (by simp [h r (by simp [List.getLast?_singleton])])]
    | cons s rest' =>
      rw [dropTrail, ih ?_]
      intro x hx
      exact h x (by rw [List.getLast?_cons_cons]; exact hx)

theorem headWord_map_normRun {rs : List (List Char)} (hok : RunsOk rs)
    (h : HeadWord rs) : HeadWord (rs.map normRun) := by
  cases rs with
  | nil => simpa using h
  | cons r rest =>
    intro x hx
    have hxr : normRun r = x := by simpa using hx
    obtain ⟨hne, hhom⟩ := runsOk_mem hok r (by simp)
    rw [← hxr, runWs_normRun hne hhom]
    exact h r (by simp)

theorem lastWord_map_normRun {rs : List (List Char)} (hok : RunsOk rs)
    (h : LastWord rs) : LastWord (rs.map normRun) := by
  intro x hx
  rw [List.getLast?_map] at hx
  cases hlast : rs.getLast? with
  | none => rw [hlast] at hx; exact absurd hx (by simp)
  | some r =>
    rw [hlast] at hx
    have hxr : normRun r = x := by simpa using hx
    obtain ⟨hne, hhom⟩ := runsOk_mem hok r
      (List.mem_of_mem_getLast? (by rw [hlast]; simp))
    rw [← hxr, runWs_normRun hne hhom]
    exact h r (by rw [hlast]; simp)

/-- Idempotence of the full `clean` function. -/
theorem clean_idem (l : List Char) : clean (clean l) = clean l := by
  have h := runsOk_runsOf l
  have h1 : clean l = ((dropTrail (dropLead (runsOf l))).map normRun).flatten
      := by
    have := clean_flatten h
    rwa [flatten_runsOf] at this
  have hok2 : RunsOk (dropTrail (dropLead (runsOf l))) :=
    runsOk_dropTrail (runsOk_dropLead h)
  have hokm : RunsOk ((dropTrail (dropLead (runsOf l))).map normRun) :=
    runsOk_map_normRun hok2
  have hhead : HeadWord ((dropTrail (dropLead (runsOf l))).map normRun) :=
    headWord_map_normRun hok2 (headWord_dropTrail (headWord_dropLead h))
  have hlast : LastWord ((dropTrail (dropLead (runsOf l))).map normRun) :=
    lastWord_map_normRun hok2 (lastWord_dropTrail (runsOk_dropLead h))
  rw [h1, clean_flatten hokm, dropLead_eq_self hhead,
    dropTrail_eq_self hlast, List.map_map]
  exact congrArg List.flatten
    (List.map_congr_left (fun r _ => normRun_idem r))

theorem mergeRuns_nil_left (rv : List (List Char)) : mergeRuns [] rv = rv := by
  rw [mergeRuns]

theorem mergeRuns_cons {a : List Char} {Z : List (List Char)} (hZ : Z ≠ [])
    (rv : List (List Char)) : mergeRuns (a :: Z) rv = a :: mergeRuns Z rv := by
  cases Z with
  | nil => exact absurd rfl hZ
  | cons z zs => rw [mergeRuns]

theorem runsOf_nil : runsOf [] = [] := by rw [runsOf]

theorem runsOf_cons (c : Char) (cs : List Char) :
    runsOf (c :: cs) =
      (c :: cs.takeWhile (fun d => isWsC d == isWsC c)) ::
        runsOf (cs.dropWhile (fun d => isWsC d == isWsC c)) := by
  rw [runsOf]

theorem runsOf_ne_nil {l : List Char} (h : l ≠ []) : runsOf l ≠ [] := by
  cases l with
  | nil => exact absurd rfl h
  | cons c cs => rw [runsOf_cons]; simp

theorem runWs_headclass {c : Char} {cs : List Char}
    (h : ∀ d ∈ cs, isWsC d = isWsC c) : runWs (c :: cs) = isWsC c := by
  rcases hc : isWsC c with _ | _
  · rw [runWs, List.all_eq_false.mpr ⟨c, by simp, by simp [hc]⟩]
  · rw [runWs, List.all_eq_true.mpr ?_]
    intro x hx
    rcases List.mem_cons.mp hx with rfl | hx
    · exact hc
    · rw [h x hx, hc]

theorem runsOf_append (u v : List Char) :
    runsOf (u ++ v) = mergeRuns (runsOf u) (runsOf v) := by
  suffices h : ∀ n (u : List Char), u.length ≤ n →
      runsOf (u ++ v) = mergeRuns (runsOf u) (runsOf v) by
    exact h u.length u le_rfl
  intro n
  induction n with
  | zero =>
    intro u hu
    rw [List.length_eq_zero.mp (Nat.le_zero.mp hu), List.nil_append,
      runsOf_nil, mergeRuns_nil_left]
  | succ n ih =>
    intro u hu
    cases u with
    | nil => rw [List.nil_append, runsOf_nil, mergeRuns_nil_left]
    | cons c cs =>
      have hlen : cs.length ≤ n := Nat.le_of_succ_le_succ (by simpa using hu)
      rcases hdw : cs.dropWhile (fun d => isWsC d == isWsC c) with _ | ⟨e, es⟩
      · -- the whole of `u` is a single run
        have htw : cs.takeWhile (fun d => isWsC d == isWsC c) = cs := by
          have happ := List.takeWhile_append_dropWhile
            (fun d => isWsC d == isWsC c) cs
          rw [hdw, List.append_nil] at happ
          exact happ
        have hcls : ∀ d ∈ cs, isWsC d = isWsC c := by
          intro d hd
          have := List.mem_takeWhile_imp (htw ▸ hd)
          simpa using this
        rw [runsOf_cons, htw, hdw, runsOf_nil]
        cases v with
        | nil =>
          rw [List.append_nil, runsOf_cons, htw, hdw, runsOf_nil, mergeRuns]
        | cons d v' =>
          rw [List.cons_append, runsOf_cons]
          have htwa : (cs ++ d :: v').takeWhile (fun x => isWsC x == isWsC c)
              = cs ++ (d :: v').takeWhile (fun x => isWsC x == isWsC c) :=
            List.takeWhile_append_of_pos (by
              intro a ha
              simp [hcls a ha])
          have hdwa : (cs ++ d :: v').dropWhile (fun x => isWsC x == isWsC c)
              = (d :: v').dropWhile (fun x => isWsC x == isWsC c) :=
            List.dropWhile_append_of_pos (by
              intro a ha
              simp [hcls a ha])
          rw [htwa, hdwa, runsOf_cons, mergeRuns]
          rcases hcd : isWsC d == isWsC c with _ | _
          · -- different classes: no merge
            rw [List.takeWhile_cons_of_neg (by simp [hcd]),
              List.dropWhile_cons_of_neg (by simp [hcd]), List.append_nil,
              if_neg (by
                rw [runWs_headclass hcls, runWs_headclass (by
                  intro x hx
                  have := List.mem_takeWhile_imp hx
                  simpa using this)]
                simp only [beq_eq_false_iff_ne, ne_eq] at hcd
                exact fun hc => hcd (by rw [hc]))]
            rw [runsOf_cons]
          · -- same class: merge the junction runs
            have hdc : isWsC d = isWsC c := by simpa using hcd
            have hpq : (fun e => isWsC e == isWsC d)
                = (fun e => isWsC e == isWsC c) := by
              funext e; rw [hdc]
            rw [List.takeWhile_cons_of_pos (by simp [hdc]),
              List.dropWhile_cons_of_pos (by simp [hdc]), hpq,
              if_pos (by
                rw [runWs_headclass hcls, runWs_headclass (by
                  intro x hx
                  have := List.mem_takeWhile_imp hx
                  rw [hdc]
                  simpa using this)]
                exact hdc.symm)]
            simp
      · -- `u` holds at least two runs
        have hdwne : cs.dropWhile (fun d => isWsC d == isWsC c) ≠ [] := by
          rw [hdw]; simp
        have htwne : (cs.takeWhile (fun d => isWsC d == isWsC c)).length
            ≠ cs.length := by
          intro hcon
          have happ := congrArg List.length (List.takeWhile_append_dropWhile
            (fun d => isWsC d == isWsC c) cs)
          rw [List.length_append, hcon] at happ
          have : (cs.dropWhile (fun d => isWsC d == isWsC c)).length = 0 := by
            omega
          exact hdwne (List.length_eq_zero.mp this)
        rw [List.cons_append, runsOf_cons, runsOf_cons,
          List.takeWhile_append, if_neg htwne, List.dropWhile_append,
          if_neg (by simp [hdwne]),
          ih _ (le_trans ((cs.dropWhile_sublist _).length_le) hlen),
          mergeRuns_cons (runsOf_ne_nil hdwne)]

theorem fRuns_nil : fRuns [] = 0 := by rw [fRuns]

theorem fRuns_cons (r : List Char) (rest : List (List Char)) :
    fRuns (r :: rest) =
      if runWs r then
        (if rest = [] then 0 else (normRun r).length + fRuns rest)
      else (normRun r).length + fRuns rest := by
  rw [fRuns]

theorem fRuns_eq_flatten_dropTrail (rs : List (List Char)) :
    fRuns rs = ((dropTrail rs).map normRun).flatten.length := by
  induction rs with
  | nil => rw [fRuns_nil, dropTrail]; simp
  | cons r rest ih =>
    cases rest with
    | nil =>
      rw [fRuns_cons, dropTrail]
      rcases hr : runWs r with _ | _
      · rw [if_neg (by simp), if_neg (by simp)]
        simp [fRuns_nil]
      · rw [if_pos rfl, if_pos rfl]
        simp
    | cons s rest' =>
      rw [fRuns_cons, dropTrail]
      rcases hr : runWs r with _ | _
      · rw [if_neg (by simp)]
        simp only [List.map_cons, List.flatten_cons, List.length_append, ih]
      · rw [if_pos rfl, if_neg (by simp)]
        simp only [List.map_cons, List.flatten_cons, List.length_append, ih]

theorem fRuns_cons_ge (s : List Char) (rest : List (List Char)) :
    fRuns rest ≤ fRuns (s :: rest) := by
  rw [fRuns_cons]
  rcases hs : runWs s with _ | _
  · rw [if_neg (by simp [hs])]
    omega
  · rw [if_pos rfl]
    split
    · next h => subst h; rw [fRuns_nil]
    · omega

theorem fRuns_dropLead_le (rv : List (List Char)) :
    fRuns (dropLead rv) ≤ fRuns rv := by
  cases rv with
  | nil => exact le_rfl
  | cons r rest =>
    rw [dropLead]
    split
    · exact fRuns_cons_ge r rest
    · exact le_rfl

theorem mergeRuns_ne_nil {ru : List (List Char)} (h : ru ≠ [])
    (rv : List (List Char)) : mergeRuns ru rv ≠ [] := by
  cases ru with
  | nil => exact absurd rfl h
  | cons r ru' =>
    cases ru' with
    | nil =>
      cases rv with
      | nil => rw [mergeRuns]; simp
      | cons s rv' => rw [mergeRuns]; split <;> simp
    | cons r' ru'' => rw [mergeRuns]; simp

theorem runWs_append_false {r s : List Char} (h : runWs r = false) :
    runWs (r ++ s) = false := by
  rw [runWs, List.all_append]
  rw [runWs] at h
  simp [h]

theorem runWs_append_true {r s : List Char} (h1 : runWs r = true)
    (h2 : runWs s = true) : runWs (r ++ s) = true := by
  rw [runWs, List.all_append]
  rw [runWs] at h1 h2
  simp [h1, h2]

/-- Superadditivity of `fRuns` under the junction merge (left part). -/
theorem fRuns_merge_ge (ru rv : List (List Char)) :
    RunsOk ru → RunsOk rv →
      fRuns ru + fRuns (dropLead rv) ≤ fRuns (mergeRuns ru rv) := by
  induction ru, rv using mergeRuns.induct with
  | case1 rv =>
    intro _ _
    rw [mergeRuns_nil_left, fRuns_nil]
    simpa using fRuns_dropLead_le rv
  | case2 r =>
    intro _ _
    rw [mergeRuns, dropLead, fRuns_nil]
    omega
  | case3 r s rv' hcls =>
    intro hu hv
    obtain ⟨hrne, hrhom⟩ := nonempty_of_runsOk_cons hu
    obtain ⟨hsne, hshom⟩ := nonempty_of_runsOk_cons hv
    rw [mergeRuns, if_pos hcls]
    rcases hr : runWs r with _ | _
    · -- both junction runs are words: the merged word counts both lengths
      have hs : runWs s = false := by rw [← hcls, hr]
      have hrn : ∀ c ∈ r, isWsC c = false := nonws_of_runWs_false hrhom hr
      have hsn : ∀ c ∈ s, isWsC c = false := nonws_of_runWs_false hshom hs
      have hrsn : ∀ c ∈ r ++ s, isWsC c = false := by
        intro c hc
        rcases List.mem_append.mp hc with hc | hc
        · exact hrn c hc
        · exact hsn c hc
      have happf : runWs (r ++ s) = false := runWs_append_false hr
      have e1 : fRuns ((r ++ s) :: rv') = (r ++ s).length + fRuns rv' := by
        rw [fRuns_cons, if_neg (by simp [happf]), normRun_nonws hrsn]
      have e2 : fRuns [r] = r.length := by
        rw [fRuns_cons, if_neg (by simp [hr]), normRun_nonws hrn, fRuns_nil]
        omega
      have e3 : dropLead (s :: rv') = s :: rv' := by
        rw [dropLead, if_neg (by simp [hs])]
      have e4 : fRuns (s :: rv') = s.length + fRuns rv' := by
        rw [fRuns_cons, if_neg (by simp [hs]), normRun_nonws hsn]
      rw [e1, e2, e3, e4, List.length_append]
      omega
    · -- both junction runs are whitespace
      have hs : runWs s = true := by rw [← hcls, hr]
      have happt : runWs (r ++ s) = true := runWs_append_true hr hs
      have e2 : fRuns [r] = 0 := by
        rw [fRuns_cons, if_pos hr, if_pos rfl]
      have e3 : dropLead (s :: rv') = rv' := by rw [dropLead, if_pos hs]
      have e1 : fRuns ((r ++ s) :: rv') =
          if rv' = [] then 0 else (normRun (r ++ s)).length + fRuns rv' := by
        rw [fRuns_cons, if_pos happt]
      rw [e1, e2, e3]
      split
      · next h => subst h; rw [fRuns_nil]
      · omega
  | case4 r s rv' hcls =>
    intro hu hv
    obtain ⟨hrne, hrhom⟩ := nonempty_of_runsOk_cons hu
    obtain ⟨hsne, hshom⟩ := nonempty_of_runsOk_cons hv
    rw [mergeRuns, if_neg hcls]
    rcases hr : runWs r with _ | _
    · -- word then whitespace junction
      have hs : runWs s = true := by
        rcases hsv : runWs s with _ | _
        · exact absurd (by rw [hr, hsv]) hcls
        · rfl
      have e1 : fRuns (r :: s :: rv') =
          (normRun r).length + fRuns (s :: rv') := by
        rw [fRuns_cons, if_neg (by simp [hr])]
      have e2 : fRuns [r] = (normRun r).length := by
        rw [fRuns_cons, if_neg (by simp [hr]), fRuns_nil]
        omega
      have e3 : dropLead (s :: rv') = rv' := by rw [dropLead, if_pos hs]
      rw [e1, e2, e3]
      have := fRuns_cons_ge s rv'
      omega
    · -- whitespace then word junction
      have hs : runWs s = false := by
        rcases hsv : runWs s with _ | _
        · rfl
        · exact absurd (by rw [hr, hsv]) hcls
      have e1 : fRuns (r :: s :: rv') =
          (normRun r).length + fRuns (s :: rv') := by
        rw [fRuns_cons, if_pos hr, if_neg (by simp)]
      have e2 : fRuns [r] = 0 := by
        rw [fRuns_cons, if_pos hr, if_pos rfl]
      have e3 : dropLead (s :: rv') = s :: rv' := by
        rw [dropLead, if_neg (by simp [hs])]
      rw [e1, e2, e3]
      omega
  | case5 r r' ru'' rv ih =>
    intro hu hv
    have ihx := ih (runsOk_tail hu) hv
    have hZne : mergeRuns (r' :: ru'') rv ≠ [] := mergeRuns_ne_nil (by simp) rv
    rw [mergeRuns_cons (by simp)]
    rcases hr : runWs r with _ | _
    · have e1 : fRuns (r :: mergeRuns (r' :: ru'') rv) =
          (normRun r).length + fRuns (mergeRuns (r' :: ru'') rv) := by
        rw [fRuns_cons, if_neg (by simp [hr])]
      have e2 : fRuns (r :: r' :: ru'') =
          (normRun r).length + fRuns (r' :: ru'') := by
        rw [fRuns_cons, if_neg (by simp [hr])]
      rw [e1, e2]
      omega
    · have e1 : fRuns (r :: mergeRuns (r' :: ru'') rv) =
          (normRun r).length + fRuns (mergeRuns (r' :: ru'') rv) := by
        rw [fRuns_cons, if_pos hr, if_neg hZne]
      have e2 : fRuns (r :: r' :: ru'') =
          (normRun r).length + fRuns (r' :: ru'') := by
        rw [fRuns_cons, if_pos hr, if_neg (by simp)]
      rw [e1, e2]
      omega

/-- Superadditivity of the cleaned length over run-list merging. -/
theorem fRuns_dropLead_merge_ge {ru rv : List (List Char)}
    (hu : RunsOk ru) (hv : RunsOk rv) :
    fRuns (dropLead ru) + fRuns (dropLead rv)
      ≤ fRuns (dropLead (mergeRuns ru rv)) := by
  cases ru with
  | nil =>
    rw [mergeRuns_nil_left, dropLead, fRuns_nil]
    omega
  | cons r ru' =>
    obtain ⟨hrne, hrhom⟩ := nonempty_of_runsOk_cons hu
    cases ru' with
    | cons r' ru'' =>
      -- at least two runs on the left: the junction is away from the head
      have hP := fRuns_merge_ge (r' :: ru'') rv (runsOk_tail hu) hv
      have hZne : mergeRuns (r' :: ru'') rv ≠ [] :=
        mergeRuns_ne_nil (by simp) rv
      rw [mergeRuns_cons (by simp)]
      rcases hr : runWs r with _ | _
      · have e1 : dropLead (r :: mergeRuns (r' :: ru'') rv)
            = r :: mergeRuns (r' :: ru'') rv := by
          rw [dropLead, if_neg (by simp [hr])]
        have e2 : dropLead (r :: r' :: ru'') = r :: r' :: ru'' := by
          rw [dropLead, if_neg (by simp [hr])]
        have e3 : fRuns (r :: mergeRuns (r' :: ru'') rv) =
            (normRun r).length + fRuns (mergeRuns (r' :: ru'') rv) := by
          rw [fRuns_cons, if_neg (by simp [hr])]
        have e4 : fRuns (r :: r' :: ru'') =
            (normRun r).length + fRuns (r' :: ru'') := by
          rw [fRuns_cons, if_neg (by simp [hr])]
        rw [e1, e2, e3, e4]
        omega
      · have e1 : dropLead (r :: mergeRuns (r' :: ru'') rv)
            = mergeRuns (r' :: ru'') rv := by
          rw [dropLead, if_pos hr]
        have e2 : dropLead (r :: r' :: ru'') = r' :: ru'' := by
          rw [dropLead, if_pos hr]
        rw [e1, e2]
        omega
    | nil =>
      cases rv with
      | nil =>
        rw [mergeRuns, dropLead, fRuns_nil]
        omega
      | cons s rv' =>
        obtain ⟨hsne, hshom⟩ := nonempty_of_runsOk_cons hv
        rw [mergeRuns]
        split
        · next hcls =>
          rcases hr : runWs r with _ | _
          · -- merged word at the head
            have hs : runWs s = false := by rw [← hcls, hr]
            have hrn : ∀ c ∈ r, isWsC c = false :=
              nonws_of_runWs_false hrhom hr
            have hsn : ∀ c ∈ s, isWsC c = false :=
              nonws_of_runWs_false hshom hs
            have hrsn : ∀ c ∈ r ++ s, isWsC c = false := by
              intro c hc
              rcases List.mem_append.mp hc with hc | hc
              · exact hrn c hc
              · exact hsn c hc
            have happf : runWs (r ++ s) = false := runWs_append_false hr
            have e1 : dropLead ((r ++ s) :: rv') = (r ++ s) :: rv' := by
              rw [dropLead, if_neg (by simp [happf])]
            have e2 : dropLead [r] = [r] := by
              rw [dropLead, if_neg (by simp [hr])]
            have e3 : dropLead (s :: rv') = s :: rv' := by
              rw [dropLead, if_neg (by simp [hs])]
            have e4 : fRuns ((r ++ s) :: rv') = (r ++ s).length + fRuns rv'
                := by
              rw [fRuns_cons, if_neg (by simp [happf]), normRun_nonws hrsn]
            have e5 : fRuns [r] = r.length := by
              rw [fRuns_cons, if_neg (by simp [hr]), normRun_nonws hrn,
                fRuns_nil]
              omega
            have e6 : fRuns (s :: rv') = s.length + fRuns rv' := by
              rw [fRuns_cons, if_neg (by simp [hs]), normRun_nonws hsn]
            rw [e1, e2, e3, e4, e5, e6, List.length_append]
            omega
          · -- merged whitespace run at the head: dropped on both sides
            have hs : runWs s = true := by rw [← hcls, hr]
            have happt : runWs (r ++ s) = true := runWs_append_true hr hs
            have e1 : dropLead ((r ++ s) :: rv') = rv' := by
              rw [dropLead, if_pos happt]
            have e2 : dropLead [r] = [] := by rw [dropLead, if_pos hr]
            have e3 : dropLead (s :: rv') = rv' := by
              rw [dropLead, if_pos hs]
            rw [e1, e2, e3, fRuns_nil]
            omega
        · next hcls =>
          rcases hr : runWs r with _ | _
          · have hs : runWs s = true := by
              rcases hsv : runWs s with _ | _
              · exact absurd (by rw [hr, hsv]) hcls
              · rfl
            have e1 : dropLead (r :: s :: rv') = r :: s :: rv' := by
              rw [dropLead, if_neg (by simp [hr])]
            have e2 : dropLead [r] = [r] := by
              rw [dropLead, if_neg (by simp [hr])]
            have e3 : dropLead (s :: rv') = rv' := by
              rw [dropLead, if_pos hs]
            have e4 : fRuns (r :: s :: rv') =
                (normRun r).length + fRuns (s :: rv') := by
              rw [fRuns_cons, if_neg (by simp [hr])]
            have e5 : fRuns [r] = (normRun r).length := by
              rw [fRuns_cons, if_neg (by simp [hr]), fRuns_nil]
              omega
            rw [e1, e2, e3, e4, e5]
            have := fRuns_cons_ge s rv'
            omega
          · have hs : runWs s = false := by
              rcases hsv : runWs s with _ | _
              · rfl
              · exact absurd (by rw [hr, hsv]) hcls
            have e1 : dropLead (r :: s :: rv') = s :: rv' := by
              rw [dropLead, if_pos hr]
            have e2 : dropLead [r] = [] := by rw [dropLead, if_pos hr]
            have e3 : dropLead (s :: rv') = s :: rv' := by
              rw [dropLead, if_neg (by simp [hs])]
            rw [e1, e2, e3, fRuns_nil]
            omega

/-- The length of `clean l` computed from the run decomposition. -/
theorem clean_length_eq (l : List Char) :
    (clean l).length = fRuns (dropLead (runsOf l)) := by
  have h := clean_flatten (runsOk_runsOf l)
  rw [flatten_runsOf] at h
  rw [h, fRuns_eq_flatten_dropTrail]

/-- `clean` is superadditive in length under concatenation. -/
theorem clean_append_length (u v : List Char) :
    (clean u).length + (clean v).length ≤ (clean (u ++ v)).length := by
  rw [clean_length_eq, clean_length_eq, clean_length_eq, runsOf_append]
  exact fRuns_dropLead_merge_ge (runsOk_runsOf u) (runsOk_runsOf v)

theorem clean_of_nonws {l : List Char} (h : ∀ c ∈ l, isWsC c = false) :
    clean l = l := by
  have h1 : sub1 l = l := by
    have := @sub1_append_nonws _ [] h
    simpa [sub1_nil] using this
  have h2 : sub2 l = l :=
    sub2_eq_self_nonsptab (fun c hc => nonws_nonsptab (h c hc))
  rw [clean, h1, h2, stripWs]
  cases l with
  | nil => simp [List.rdropWhile_nil]
  | cons c cs =>
    rw [List.dropWhile_cons_of_neg (by simp [h c (by simp)]),
      List.rdropWhile_eq_self_iff.mpr
        (fun hl => by simp [h _ (List.getLast_mem hl)])]

mutual

/-- Sum of anchor text lengths is bounded by the element's text length,
provided no anchor is nested inside another anchor. -/
theorem anchor_sum_le (e : Elem)
    (hno : ∀ a ∈ findTag "a" e, findTag "a" a = []) :
    ((findTag "a" e).map text_length).sum ≤ text_length e :=
  match e with
  | .mk tag attrs tx tl ch => by
    have hlist := anchor_sum_le_list ch (by
      intro a ha
      exact hno a (by rw [findTag]; exact ha))
    have hsup := clean_append_length tx (textContentList ch)
    rw [findTag, text_length, textContent]
    omega

theorem anchor_sum_le_list (ch : List Elem)
    (hno : ∀ a ∈ findTagList "a" ch, findTag "a" a = []) :
    ((findTagList "a" ch).map text_length).sum
      ≤ (clean (textContentList ch)).length :=
  match ch with
  | [] => by rw [findTagList, textContentList]; simp
  | c :: cs => by
    have hcs := anchor_sum_le_list cs (by
      intro a ha
      exact hno a (by
        rw [findTagList]
        exact List.mem_append_right _ ha))
    have hsup1 := clean_append_length (textContent c ++ c.tail)
      (textContentList cs)
    have hsup2 := clean_append_length (textContent c) c.tail
    rw [findTagList, textContentList]
    by_cases htag : c.tag = "a"
    · -- `c` itself is an anchor; by the no-nesting hypothesis it contains
      -- no further anchors
      have hempty : findTag "a" c = [] := hno c (by
        rw [findTagList, htag]
        simp)
      rw [if_pos htag, hempty]
      simp only [List.append_nil, List.singleton_append, List.map_cons,
        List.sum_cons, List.map_append, List.sum_append]
      rw [text_length]
      omega
    · have hc := anchor_sum_le c (by
        intro a ha
        exact hno a (by
          rw [findTagList]
          exact List.mem_append_left _ (List.mem_append_right _ ha)))
      rw [if_neg htag]
      simp only [List.nil_append, List.map_append, List.sum_append]
      rw [text_length] at hc
      omega

end

theorem findTag_elNested : findTag "a" elNested = [aOuter, aInner] := by
  simp [elNested, aOuter, aInner, findTag, findTagList, Elem.tag]

theorem text_length_aInner : text_length aInner = 1 := by
  have h : textContent aInner = ['x'] := by
    simp [aInner, textContent, textContentList]
  rw [text_length, h, clean_of_nonws (by decide)]
  rfl

theorem textContent_aOuter : textContent aOuter = ['x'] := by
  simp [aOuter, aInner, textContent, textContentList, Elem.tail]

theorem text_length_aOuter : text_length aOuter = 1 := by
  rw [text_length, textContent_aOuter, clean_of_nonws (by decide)]
  rfl

theorem text_length_elNested : text_length elNested = 1 := by
  have h : textContent elNested = ['x'] := by
    simp [elNested, aOuter, aInner, textContent, textContentList, Elem.tail]
  rw [text_length, h, clean_of_nonws (by decide)]
  rfl

theorem get_link_density_elNested : get_link_density elNested = 2 := by
  rw [get_link_density, findTag_elNested]
  rw [List.map_cons, List.map_cons, List.map_nil, text_length_aOuter,
    text_length_aInner, text_length_elNested]
  norm_num

/-- **C8**: `clean` is idempotent: for every string `s`,
`clean(clean(s)) == clean(s)`, where `clean` collapses runs of two-or-more
space/tab into a single space, collapses whitespace-surrounded newlines into
a single newline, and strips leading/trailing whitespace. -/
theorem claim_C8 (s : List Char) : clean (clean s) = clean s :=
  clean_idem s

/-- **C7** (amended): for every element `e` in which no `<a>` descendant has
a further `<a>` descendant, `link_density(e)` — the sum of `text_length`
over descendant `<a>` elements divided by `max(text_length(e), 1)` — is a
real number satisfying `0 ≤ link_density(e) ≤ 1`.  (The bound as originally
stated fails on elements with nested anchors, whose text is counted once
per enclosing anchor.) -/
theorem claim_C7 (e : Elem) (h : NoNestedAnchors e) :
    0 ≤ get_link_density e ∧ get_link_density e ≤ 1 := by
  constructor
  · exact div_nonneg (Nat.cast_nonneg _) (Nat.cast_nonneg _)
  · rw [get_link_density]
    apply div_le_one_of_le
    · have hle : ((findTag "a" e).map text_length).sum
          ≤ max (text_length e) 1 :=
        le_trans (anchor_sum_le e h) (le_max_left _ _)
      exact_mod_cast hle
    · exact Nat.cast_nonneg _

/-- Witness for C7 at a concrete element with text `"hi"` and no links. -/
theorem claim_C7_witness :
    NoNestedAnchors elPlain ∧
      (0 ≤ get_link_density elPlain ∧ get_link_density elPlain ≤ 1) := by
  have hno : NoNestedAnchors elPlain := by
    intro a ha
    simp [elPlain, findTag, findTagList] at ha
  exact ⟨hno, claim_C7 elPlain hno⟩

/-- Counterexample to C7 as originally stated: on the nested-anchor element
`<div><a><a>x</a></a></div>` the link density is `2`, outside `[0, 1]`. -/
theorem claim_C7_counterexample :
    ¬ (0 ≤ get_link_density elNested ∧ get_link_density elNested ≤ 1) := by
  intro hcon
  rw [get_link_density_elNested] at hcon
  norm_num at hcon

/-- **C5** (amended): the domain string is matched against the *lowercased*
content at both ends, so matching is case-insensitive with respect to the
content's casing only; the configured domain must itself be lowercase to
ever match.  For every lowercase domain the code agrees with the spec's
case-insensitive stripping, and in particular with domain `"amazon.com "`
and content `"amazon.com Foo"` the result is `"Foo"`. -/
theorem claim_C5 :
    (∀ d t : List Char, lowerL d = d →
        stripDomain (some t) (some d) = stripDomainSpec (some t) (some d))
    ∧ stripDomain (some "amazon.com Foo".data) (some "amazon.com ".data)
        = some "Foo".data := by
  constructor
  · intro d t hd
    rw [stripDomain, stripDomainSpec, hd]
  · decide

/-- Witness for C5: the lowercase-domain hypothesis holds of
`"amazon.com "`, and the code then strips a differently-cased content. -/
theorem claim_C5_witness :
    lowerL "amazon.com ".data = "amazon.com ".data ∧
      stripDomain (some "AMAZON.com Foo".data) (some "amazon.com ".data)
        = stripDomainSpec (some "AMAZON.com Foo".data)
            (some "amazon.com ".data) :=
  ⟨by decide, claim_C5.1 "amazon.com ".data "AMAZON.com Foo".data (by decide)⟩

/-- Counterexample to C5 as stated: with the domain configured as
`"Amazon.com "` (uppercase `A` — "any letter casing on either side") and
content `"amazon.com Foo"`, nothing is stripped, because the code compares
the raw domain against the lowercased content. -/
theorem claim_C5_counterexample :
    stripDomain (some "amazon.com Foo".data) (some "Amazon.com ".data)
      ≠ some "Foo".data := by
  decide

theorem addMeta_nil (fragOk : List Char → List Char → Bool)
    (domain : Option (List Char)) (st : MetaState) :
    addMeta fragOk domain st [] = .ok st := rfl

theorem addMeta_cons (fragOk : List Char → List Char → Bool)
    (domain : Option (List Char)) (st : MetaState) (m : MetaTag)
    (ms : List MetaTag) :
    addMeta fragOk domain st (m :: ms) =
      (addMetaStep fragOk domain st m).bind
        (fun st' => addMeta fragOk domain st' ms) := rfl

theorem addProps_nil (fragOk : List Char → List Char → Bool)
    (st : MetaState) : addProps fragOk st [] = .ok st := rfl

theorem addProps_cons (fragOk : List Char → List Char → Bool)
    (st : MetaState) (it : ItemElem) (its : List ItemElem) :
    addProps fragOk st (it :: its) =
      (addPropsStep fragOk st it).bind
        (fun st' => addProps fragOk st' its) := rfl

theorem stripDomain_some (t : List Char) (d : Option (List Char)) :
    ∃ u, stripDomain (some t) d = some u := by
  cases d with
  | none => exact ⟨t, rfl⟩
  | some st => exact ⟨_, rfl⟩

/-- **C4** (code bug): in `addMeta` the `base.insert(0, meta)` sits
*outside* the `try`, so when fragment construction fails on the very first
eligible `<meta>` entry the local `meta` is still unbound and the insert
raises `NameError` — which escapes `addMeta` and (wrapped as `Unparseable`)
fails the whole `summary()` call, contradicting the documented soft-skip.
This theorem evaluates the embedded `addMeta` at such a failing input. -/
theorem claim_C4 :
    addMeta (fun _ _ => false) none ⟨[], none, []⟩
      [⟨some "og:title".data, none, some "X".data⟩] = .error () := by
  rfl

/-- **C6** (amended): two `<meta>` tags with the same dedupe key are
deduplicated on their *domain-stripped* content: when the stripped contents
coincide exactly one `<p>` is prepended, and when they differ both are.
(The original claim compared the raw contents; with a configured domain two
differing raw contents can strip to the same value and yield one `<p>`.) -/
theorem claim_C6 (fragOk : List Char → List Char → Bool)
    (domain : Option (List Char)) (p q c1 c2 : List Char)
    (hp : p ∈ METAPROPS) (hq : q ∈ METAPROPS)
    (hkey : dedupeKeyL q = dedupeKeyL p)
    (hfrag : ∀ pr c, fragOk pr c = true) :
    (stripDomain (some c2) domain = stripDomain (some c1) domain →
        (addMeta fragOk domain ⟨[], none, []⟩
          [⟨some p, none, some c1⟩, ⟨some q, none, some c2⟩]).map
          (fun st => st.base.length) = .ok 1)
    ∧ (stripDomain (some c2) domain ≠ stripDomain (some c1) domain →
        (addMeta fragOk domain ⟨[], none, []⟩
          [⟨some p, none, some c1⟩, ⟨some q, none, some c2⟩]).map
          (fun st => st.base.length) = .ok 2) := by
  obtain ⟨mc1, hmc1⟩ := stripDomain_some c1 domain
  obtain ⟨mc2, hmc2⟩ := stripDomain_some c2 domain
  have hstep1 : addMetaStep fragOk domain ⟨[], none, []⟩
      ⟨some p, none, some c1⟩ =
      .ok ⟨[(dedupeKeyL p, some mc1)], some ⟨p, stripTags mc1⟩,
        [⟨p, stripTags mc1⟩]⟩ := by
    rw [addMetaStep]
    simp only [Option.or, if_pos hp, hmc1]
    rw [if_pos (by
      show lookupD [] (dedupeKeyL p) ≠ some mc1
      simp [lookupD]), if_pos (hfrag p (stripTags mc1))]
  have hlook : lookupD [(dedupeKeyL p, some mc1)] (dedupeKeyL q) = some mc1
      := by
    rw [hkey, lookupD]
    simp
  constructor
  · intro heq
    have hmc12 : mc2 = mc1 := by
      rw [hmc1, hmc2] at heq
      simpa using heq
    have hstep2 : addMetaStep fragOk domain
        ⟨[(dedupeKeyL p, some mc1)], some ⟨p, stripTags mc1⟩,
          [⟨p, stripTags mc1⟩]⟩ ⟨some q, none, some c2⟩ =
        .ok ⟨(dedupeKeyL q, some mc1) ::
          [(dedupeKeyL p, some mc1)], some ⟨p, stripTags mc1⟩,
          [⟨p, stripTags mc1⟩]⟩ := by
      rw [addMetaStep]
      simp only [Option.or, if_pos hq, hmc2, hmc12]
      rw [if_neg (by
        show ¬ (lookupD [(dedupeKeyL p, some mc1)] (dedupeKeyL q)
          ≠ some mc1)
        rw [hlook]
        simp)]
    rw [addMeta_cons, hstep1, Except.bind, addMeta_cons, hstep2,
      Except.bind, addMeta_nil]
    rfl
  · intro hne
    have hmc12 : mc2 ≠ mc1 := by
      intro hcon
      exact hne (by rw [hmc1, hmc2, hcon])
    have hstep2 : addMetaStep fragOk domain
        ⟨[(dedupeKeyL p, some mc1)], some ⟨p, stripTags mc1⟩,
          [⟨p, stripTags mc1⟩]⟩ ⟨some q, none, some c2⟩ =
        .ok ⟨(dedupeKeyL q, some mc2) ::
          [(dedupeKeyL p, some mc1)], some ⟨q, stripTags mc2⟩,
          [⟨q, stripTags mc2⟩, ⟨p, stripTags mc1⟩]⟩ := by
      rw [addMetaStep]
      simp only [Option.or, if_pos hq, hmc2]
      rw [if_pos (by
        show lookupD [(dedupeKeyL p, some mc1)] (dedupeKeyL q)
          ≠ some mc2
        rw [hlook]
        simp [hmc12.symm]), if_pos (hfrag q (stripTags mc2))]
    rw [addMeta_cons, hstep1, Except.bind, addMeta_cons, hstep2,
      Except.bind, addMeta_nil]
    rfl

/-- Witness for C6 at two `og:title` metas with identical content `"X"`. -/
theorem claim_C6_witness :
    "og:title".data ∈ METAPROPS ∧
      (addMeta (fun _ _ => true) none ⟨[], none, []⟩
        [⟨some "og:title".data, none, some "X".data⟩,
         ⟨some "og:title".data, none, some "X".data⟩]).map
        (fun st => st.base.length) = .ok 1 :=
  ⟨by decide,
    (claim_C6 (fun _ _ => true) none "og:title".data "og:title".data
      "X".data "X".data (by decide) (by decide) rfl
      (fun _ _ => rfl)).1 rfl⟩

/-- Counterexample to C6 as stated: with domain `"amazon.com "`, the two
contents `"amazon.com Foo"` and `"Foo"` differ, yet only one `<p>` is
prepended, because dedupe compares the domain-stripped contents. -/
theorem claim_C6_counterexample :
    (addMeta (fun _ _ => true) (some "amazon.com ".data) ⟨[], none, []⟩
      [⟨some "og:title".data, none, some "amazon.com Foo".data⟩,
       ⟨some "og:title".data, none, some "Foo".data⟩]).map
      (fun st => st.base.length) = .ok 1 := by
  rfl

/-- **C10**: the meta pass and itemprop pass share one dedupe map inside a
single `collectMetaTags` call: an `[itemprop]` element whose itemprop name
equals the dedupe key of an already-collected `<meta>` property and whose
resolved content equals that meta's recorded (domain-stripped) content
produces no additional `<p>` in the container. -/
theorem claim_C10 (fragOk : List Char → List Char → Bool)
    (domain : Option (List Char)) (p c : List Char) (it : ItemElem)
    (hp : p ∈ METAPROPS) (hk : it.itemprop ∈ ITEMPROPS)
    (hkey : it.itemprop = dedupeKeyL p)
    (hcontent : stripDomain (some c) domain = some (itemContent it))
    (hfrag : ∀ pr cc, fragOk pr cc = true) :
    (collectMetaTags fragOk domain [⟨some p, none, some c⟩] [it]).map
      (fun st => st.base.length) = .ok 1 := by
  have hstep1 : addMetaStep fragOk domain ⟨[], none, []⟩
      ⟨some p, none, some c⟩ =
      .ok ⟨[(dedupeKeyL p, some (itemContent it))],
        some ⟨p, stripTags (itemContent it)⟩,
        [⟨p, stripTags (itemContent it)⟩]⟩ := by
    rw [addMetaStep]
    simp only [Option.or, if_pos hp, hcontent]
    rw [if_pos (by
      show lookupD [] (dedupeKeyL p) ≠ some (itemContent it)
      simp [lookupD]), if_pos (hfrag p (stripTags (itemContent it)))]
  have hstep2 : addPropsStep fragOk
      ⟨[(dedupeKeyL p, some (itemContent it))],
        some ⟨p, stripTags (itemContent it)⟩,
        [⟨p, stripTags (itemContent it)⟩]⟩ it =
      .ok ⟨(it.itemprop, some (itemContent it)) ::
          [(dedupeKeyL p, some (itemContent it))],
        some ⟨p, stripTags (itemContent it)⟩,
        [⟨p, stripTags (itemContent it)⟩]⟩ ∨
      addPropsStep fragOk
      ⟨[(dedupeKeyL p, some (itemContent it))],
        some ⟨p, stripTags (itemContent it)⟩,
        [⟨p, stripTags (itemContent it)⟩]⟩ it =
      .ok ⟨[(dedupeKeyL p, some (itemContent it))],
        some ⟨p, stripTags (itemContent it)⟩,
        [⟨p, stripTags (itemContent it)⟩]⟩ := by
    rw [addPropsStep, if_pos hk]
    split
    · exact Or.inr rfl
    · rw [if_neg (by
        show ¬ (lookupD [(dedupeKeyL p, some (itemContent it))] it.itemprop
          ≠ some (itemContent it))
        rw [hkey, lookupD]
        simp)]
      exact Or.inl rfl
  rw [collectMetaTags]
  rw [show (do
      let st1 ← addMeta fragOk domain ⟨[], none, []⟩ [⟨some p, none, some c⟩]
      addProps fragOk st1 [it]) =
    (addMeta fragOk domain ⟨[], none, []⟩ [⟨some p, none, some c⟩]).bind
      (fun st1 => addProps fragOk st1 [it]) from rfl]
  rw [addMeta_cons, hstep1, Except.bind, addMeta_nil]
  rw [show Except.bind (Except.ok (ε := Unit)
      (⟨[(dedupeKeyL p, some (itemContent it))],
        some ⟨p, stripTags (itemContent it)⟩,
        [⟨p, stripTags (itemContent it)⟩]⟩ : MetaState))
      (fun st1 => addProps fragOk st1 [it]) =
    addProps fragOk ⟨[(dedupeKeyL p, some (itemContent it))],
        some ⟨p, stripTags (itemContent it)⟩,
        [⟨p, stripTags (itemContent it)⟩]⟩ [it] from rfl]
  rw [addProps_cons]
  rcases hstep2 with h2 | h2 <;>
    rw [h2, Except.bind, addProps_nil] <;> rfl

/-- Witness for C10: a collected `og:description` meta with content `"D"`
suppresses an `itemprop="description"` element resolving to `"D"`. -/
theorem claim_C10_witness :
    "og:description".data ∈ METAPROPS ∧ "description".data ∈ ITEMPROPS ∧
      (collectMetaTags (fun _ _ => true) none
        [⟨some "og:description".data, none, some "D".data⟩]
        [⟨"description".data, some "D".data, [], []⟩]).map
        (fun st => st.base.length) = .ok 1 :=
  ⟨by decide, by decide,
    claim_C10 (fun _ _ => true) none "og:description".data "D".data
      ⟨"description".data, some "D".data, [], []⟩ (by decide) (by decide)
      (by decide) rfl (fun _ _ => rfl)⟩

theorem lookup_bumpC (l : List (Nat × ℚ)) (k k' : Nat) (δ : ℚ) :
    (bumpC l k δ).lookup k' =
      if k' = k then (l.lookup k').map (· + δ) else l.lookup k' := by
  induction l with
  | nil => by_cases h : k' = k <;> simp [bumpC, h]
  | cons kv l ih =>
    rcases kv with ⟨a, b⟩
    by_cases hk : a = k
    · subst hk
      by_cases hk' : k' = a
      · subst hk'
        simp [bumpC, List.lookup_cons]
      · have hba : (k' == a) = false := by simpa using hk'
        simp only [bumpC, List.map_cons] at ih ⊢
        simp [List.lookup_cons, hba, hk', ih]
    · by_cases hk' : k' = a
      · subst hk'
        have hkk : ¬ (k' = k) := hk
        simp [bumpC, List.lookup_cons, hk, hkk]
      · have hba : (k' == a) = false := by simpa using hk'
        simp only [bumpC, List.map_cons] at ih ⊢
        simp [List.lookup_cons, hk, hba, ih]

/-- **C1** (amended): for every scored paragraph-like element with a parent
and cleaned text of length ≥ `min_text_length`, the scorer adds to the
parent candidate a per-paragraph `content_score` equal to
`1 + (number of comma-separated pieces of the cleaned inner text)
+ min(len(inner)/100, 3)` — the piece count being the comma count *plus
one*, since the code uses `len(inner.split(','))` — and adds exactly half
that amount to the grandparent candidate when one exists; a candidate
absent from the map is first seeded with `score_node`. -/
theorem claim_C1 (minLen : Nat) (cands : List (Nat × ℚ)) (p : Para)
    (hlen : minLen ≤ (clean p.raw).length)
    (hgp : ∀ gk g, p.gparent = some (gk, g) → gk ≠ p.parentKey) :
    (scoreStep minLen cands p).lookup p.parentKey =
      some (((cands.lookup p.parentKey).getD (score_node p.parent))
        + paragraphScore (clean p.raw))
    ∧ (∀ gk g, p.gparent = some (gk, g) →
        (scoreStep minLen cands p).lookup gk =
          some (((cands.lookup gk).getD (score_node g))
            + paragraphScore (clean p.raw) / 2))
    ∧ paragraphScore (clean p.raw) =
        1 + ((((clean p.raw).count ',' : ℚ)) + 1)
          + min (((clean p.raw).length : ℚ) / 100) 3 := by
  have hnotlt : ¬ ((clean p.raw).length < minLen) := by omega
  have hc1 : ∀ cs0 : List (Nat × ℚ),
      ((if (cs0.lookup p.parentKey).isSome then cs0
        else cs0 ++ [(p.parentKey, score_node p.parent)]).lookup
          p.parentKey)
        = some ((cs0.lookup p.parentKey).getD (score_node p.parent)) := by
    intro cs0
    cases hl : cs0.lookup p.parentKey with
    | some v =>
      rw [if_pos (show (some v).isSome = true from rfl), hl]
      rfl
    | none =>
      rw [if_neg (by simp), List.lookup_append, hl]
      simp
  refine ⟨?_, ?_, ?_⟩
  · rw [scoreStep, if_neg hnotlt]
    cases hg : p.gparent with
    | none =>
      simp only [hg]
      rw [lookup_bumpC, if_pos rfl, hc1]
      rfl
    | some gkg =>
      obtain ⟨gk, g⟩ := gkg
      have hne : gk ≠ p.parentKey := hgp gk g hg
      simp only [hg]
      rw [lookup_bumpC, if_neg (Ne.symm hne), lookup_bumpC, if_pos rfl]
      by_cases hC : (((if (cands.lookup p.parentKey).isSome then cands
          else cands ++ [(p.parentKey, score_node p.parent)]).lookup
            gk).isSome = true)
      · rw [if_pos hC, hc1 cands]
        rfl
      · rw [if_neg hC, List.lookup_append, hc1 cands]
        rfl
  · intro gk g hg
    have hne : gk ≠ p.parentKey := hgp gk g hg
    have hGkPk : (gk == p.parentKey) = false := by simpa using hne
    rw [scoreStep, if_neg hnotlt]
    simp only [hg]
    rw [lookup_bumpC, if_pos rfl, lookup_bumpC, if_neg hne]
    have hc1gk : ((if (cands.lookup p.parentKey).isSome then cands
        else cands ++ [(p.parentKey, score_node p.parent)]).lookup gk)
        = cands.lookup gk := by
      split
      · rfl
      · rw [List.lookup_append]
        cases hl : cands.lookup gk with
        | some v => rfl
        | none => simp [List.lookup_cons, hGkPk]
    cases hl : cands.lookup gk with
    | some v =>
      rw [if_pos (by rw [hc1gk, hl]; rfl), hc1gk, hl]
      rfl
    | none =>
      rw [if_neg (by rw [hc1gk, hl]; simp), List.lookup_append, hc1gk, hl]
      simp [List.lookup_cons]
  · rw [paragraphScore]
    push_cast
    ring

theorem class_weight_divX : class_weight divX = 0 := by
  rw [class_weight, show divX.attrs = [] from rfl]
  simp [List.lookup]

theorem score_node_divX : score_node divX = 5 := by
  rw [score_node, show divX.tag = "div" from rfl,
    show lowerL "div".data = "div".data from by decide, if_pos rfl,
    class_weight_divX]
  norm_num

theorem clean_raw_paraX : clean paraX.raw = List.replicate 100 'a' := by
  rw [paraX]
  exact clean_of_nonws (by
    intro c hc
    rw [List.eq_of_mem_replicate hc]
    decide)

/-- Counterexample to C1 as stated: on a 100-character comma-free
paragraph under a bare `<div>` (seed score 5), the claimed per-paragraph
score is `1 + 0 + min(1, 3) = 2`, so the claim predicts a parent score of
`7`; the code computes `5 + (1 + 1 + 1) = 8`, because
`len(inner.split(','))` is the comma count plus one. -/
theorem claim_C1_counterexample :
    (scoreStep 25 [] paraX).lookup 0 = some 8
    ∧ score_node divX + (1 + ((List.replicate 100 'a').count ',' : ℚ)
        + min (((List.replicate 100 'a').length : ℚ) / 100) 3) = 7
    ∧ (8 : ℚ) ≠ 7 := by
  have hcount : (List.replicate 100 'a').count ',' = 0 := by
    simp [List.count_replicate]
  have hlen : (List.replicate (100 : ℕ) 'a').length = 100 := by simp
  have hmin : min ((100 : ℚ) / 100) 3 = 1 := by norm_num
  refine ⟨?_, ?_, by norm_num⟩
  · rw [scoreStep, show paraX.gparent = none from rfl,
      show paraX.parentKey = 0 from rfl,
      show paraX.parent = divX from rfl, clean_raw_paraX,
      if_neg (by simp)]
    simp only [List.lookup_nil, Option.isSome_none, Bool.false_eq_true,
      if_false, List.nil_append]
    rw [lookup_bumpC, if_pos rfl]
    simp only [List.lookup_cons, beq_self_eq_true, Option.map_some]
    rw [paragraphScore, score_node_divX, hcount, hlen]
    push_cast
    rw [hmin]
    norm_num
  · rw [hcount, hlen, score_node_divX]
    push_cast
    rw [hmin]
    norm_num

/-- Witness for C1 at the concrete 100-character paragraph. -/
theorem claim_C1_witness :
    25 ≤ (clean paraX.raw).length ∧
      (scoreStep 25 [] paraX).lookup paraX.parentKey =
        some ((([] : List (Nat × ℚ)).lookup paraX.parentKey).getD
          (score_node paraX.parent) + paragraphScore (clean paraX.raw)) := by
  have hlen : 25 ≤ (clean paraX.raw).length := by
    rw [clean_raw_paraX]
    simp
  exact ⟨hlen, (claim_C1 25 [] paraX hlen (by
    intro gk g hcon
    exact absurd hcon (by rw [show paraX.gparent = none from rfl]; simp))).1⟩

set_option maxHeartbeats 2000000 in
/-- **C2** (amended): the sibling rescue runs only when removal rule 7 (the
embed rule) marks the element: a removal under rules 1–6 does not consult
the siblings at all, and a rescue happens exactly in the embed branch when
the gathered sibling lengths (at most one non-empty following and one
non-empty preceding sibling) sum to more than 1000, in which case the
element's descendant `table`/`ul`/`div` elements — not the element
itself — are added to the allowed set. -/
theorem claim_C2 (minLen : Nat) (cs : ℚ) (el : Elem)
    (fs ps fs' ps' : List Elem) :
    (∀ r, conditionalCleanStep minLen cs el fs ps = .removed r →
        r ≠ .embedHeavy →
        conditionalCleanStep minLen cs el fs' ps' = .removed r)
    ∧ (∀ allowed, conditionalCleanStep minLen cs el fs ps
          = .rescued allowed →
        allowed = findTag "table" el ++ findTag "ul" el ++ findTag "div" el
          ∧ sibLens fs ps ≠ [] ∧ 1000 < (sibLens fs ps).sum)
    ∧ (conditionalCleanStep minLen cs el fs ps = .removed .embedHeavy →
        ¬(sibLens fs ps ≠ [] ∧ 1000 < (sibLens fs ps).sum)) := by
  simp only [conditionalCleanStep]
  generalize class_weight el = w
  generalize List.count ',' (textContent el) = cc
  generalize (findTag "p" el).length = pc
  generalize (findTag "img" el).length = ic
  generalize (findTag "li" el).length = lc
  generalize (findTag "input" el).length = nc
  generalize (findTag "embed" el).length = ec
  generalize text_length el = tl
  generalize get_link_density el = ld
  generalize findTag "table" el ++ findTag "ul" el ++ findTag "div" el = alw
  generalize sibLens fs ps = sb
  generalize sibLens fs' ps' = sb'
  refine ⟨?_, ?_, ?_⟩
  · intro r h hne
    repeat' split at h
    all_goals repeat' split
    all_goals simp_all
  · intro allowed h
    repeat' split at h
    all_goals simp_all
  · intro h
    repeat' split at h
    all_goals simp_all

theorem class_weight_elShort : class_weight elShort = 0 := by
  rw [class_weight, show elShort.attrs = [] from rfl]
  simp [List.lookup]

theorem textContent_elShort : textContent elShort = "hello".data := by
  simp [elShort, textContent, textContentList]

theorem text_length_elShort : text_length elShort = 5 := by
  rw [text_length, textContent_elShort, clean_of_nonws (by decide)]
  decide

theorem findTag_elShort (t : String) : findTag t elShort = [] := by
  simp [elShort, findTag, findTagList]

theorem text_length_bigP : text_length bigP = 2000 := by
  have h0 : textContent bigP = List.replicate 2000 'a' ++ textContentList [] :=
    rfl
  have h : textContent bigP = List.replicate 2000 'a' := by
    rw [h0, show textContentList [] = [] from rfl, List.append_nil]
  rw [text_length, h, clean_of_nonws (by
    intro c hc
    rw [List.eq_of_mem_replicate hc]
    decide)]
  rw [List.length_replicate]

theorem sibLens_bigP : sibLens [bigP] [] = [2000] := by
  have hfind : List.find? (fun s => !(text_length s == 0)) [bigP]
      = some bigP := by
    rw [List.find?_cons_of_pos]
    show (!(text_length bigP == 0)) = true
    rw [text_length_bigP]
    decide
  rw [sibLens, hfind, List.find?_nil]
  simp [text_length_bigP]

/-- The sanitizer's decision on `elShort` does not depend on the siblings:
rule 4 removes it before the embed rule (the only rule with the rescue)
is reached. -/
theorem elShort_decision (fs ps : List Elem) :
    conditionalCleanStep 25 0 elShort fs ps = .removed .tooShort := by
  simp only [conditionalCleanStep]
  rw [class_weight_elShort, textContent_elShort, findTag_elShort "p",
    findTag_elShort "img", findTag_elShort "li", findTag_elShort "input",
    text_length_elShort]
  rw [if_neg (by norm_num), if_pos (by decide), if_neg (by decide),
    if_neg (by norm_num), if_neg (by norm_num), if_pos (by decide)]

/-- Counterexample to C2 as stated: `elShort` is marked for removal by
rule 4 (too short, no images) while its following sibling has text length
2000 > 1000, so the claim (rescue runs for rules 1–7) predicts a rescue —
but the code removes the element: the rescue block, being indented inside
the final `elif`, is reachable only from the embed rule. -/
theorem claim_C2_counterexample :
    conditionalCleanStep 25 0 elShort [bigP] [] = .removed .tooShort
    ∧ sibLens [bigP] [] ≠ [] ∧ 1000 < (sibLens [bigP] []).sum := by
  refine ⟨elShort_decision [bigP] [], ?_, ?_⟩ <;> rw [sibLens_bigP] <;> decide

/-- The first conjunct of C2 applied at a concrete input: `elShort`'s
rule-4 removal with empty sibling lists transfers to the sibling lists
`[bigP], []`. -/
theorem claim_C2_witness :
    conditionalCleanStep 25 0 elShort [bigP] [] = .removed .tooShort :=
  (claim_C2 25 0 elShort [] [] [bigP] []).1 .tooShort
    (elShort_decision [] []) (by decide)

theorem summaryLoop_succ {α : Type} (P : Driver α) (n : Nat)
    (ruthless : Bool) :
    summaryLoop P (n + 1) ruthless
      = match summaryPass P ruthless with
        | some out => some out
        | none => summaryLoop P n false := rfl

/-- A pass with `ruthless = False` always breaks with a result: with a
best candidate the retry check is disabled, and without one the body (or
document root) is emitted. -/
theorem summaryPass_false_some {α : Type} (P : Driver α) :
    ∃ o, summaryPass P false = some o := by
  cases hb : P.best false with
  | some c => exact ⟨P.cleaned false c, by simp [summaryPass, hb]⟩
  | none =>
    exact ⟨P.sanitizeEl (match P.body with | some b => b | none => P.root),
      by simp [summaryPass, hb]⟩

/-- **C3**: the driver loop terminates within two passes for every
pipeline: starting ruthless, fuel `2` already yields a result, and any
extra fuel yields the same result — the only `continue`s (no best
candidate, or a cleaned article shorter than `retry_length`) are guarded
by `ruthless`, which they clear, and a non-ruthless pass always breaks,
falling back to the remaining body or document root rather than failing. -/
theorem claim_C3 {α : Type} (P : Driver α) :
    ∃ out, summaryLoop P 2 true = some out
      ∧ ∀ n, summaryLoop P (n + 2) true = some out := by
  obtain ⟨o, ho⟩ := summaryPass_false_some P
  cases hp : summaryPass P true with
  | some out =>
    refine ⟨out, ?_, fun n => ?_⟩
    · show summaryLoop P (1 + 1) true = some out
      rw [summaryLoop_succ, hp]
    · show summaryLoop P ((n + 1) + 1) true = some out
      rw [summaryLoop_succ, hp]
  | none =>
    refine ⟨o, ?_, fun n => ?_⟩
    · show summaryLoop P (1 + 1) true = some o
      rw [summaryLoop_succ, hp]
      show summaryLoop P (0 + 1) false = some o
      rw [summaryLoop_succ, ho]
    · show summaryLoop P ((n + 1) + 1) true = some o
      rw [summaryLoop_succ, hp]
      show summaryLoop P (n + 1) false = some o
      rw [summaryLoop_succ, ho]

theorem select_best_pairwise (cs : List Cand) :
    (cs.mergeSort (fun a b => b.score ≤ a.score)).Pairwise
      (fun a b => (decide (b.score ≤ a.score)) = true) := by
  exact List.sorted_mergeSort
    (by
      intro a b c hab hbc
      simp only [decide_eq_true_eq] at *
      exact le_trans hbc hab)
    (by
      intro a b
      simpa using le_total b.score a.score)
    cs

/-- **C9**: the candidate selection is deterministic — equal candidate
lists give equal results — and its value is characterized: the selected
candidate belongs to the list and carries a maximal `content_score`
(ties are broken by the stable sort, hence by list position), and an
empty candidate dict yields `None`.  In this embedding every stage of
`summary` is a pure function of the input and options, so determinism of
the whole output reduces to this, the one stage the spec flags (dict
ordering plus sorting). -/
theorem claim_C9 (cs cs' : List Cand) (h : cs = cs') :
    select_best_candidate cs = select_best_candidate cs'
    ∧ (∀ c, select_best_candidate cs = some c →
        c ∈ cs ∧ ∀ d ∈ cs, d.score ≤ c.score)
    ∧ select_best_candidate ([] : List Cand) = none := by
  refine ⟨by rw [h], ?_, by simp [select_best_candidate]⟩
  intro c hc
  rw [select_best_candidate] at hc
  obtain ⟨t, ht⟩ := List.head?_eq_some_iff.mp hc
  have hmem : c ∈ cs := by
    have hmem0 : c ∈ cs.mergeSort (fun a b => b.score ≤ a.score) := by
      rw [ht]
      exact List.mem_cons_self c t
    exact List.mem_mergeSort.mp hmem0
  refine ⟨hmem, fun d hd => ?_⟩
  have hdL : d ∈ cs.mergeSort (fun a b => b.score ≤ a.score) :=
    List.mem_mergeSort.mpr hd
  rw [ht] at hdL
  rcases List.mem_cons.mp hdL with hdc | hdt
  · rw [hdc]
  · have hpw := select_best_pairwise cs
    rw [ht] at hpw
    have := List.rel_of_pairwise_cons hpw hdt
    simpa using this

/-- C9 applied at a concrete input: the singleton candidate list compared
with itself. -/
theorem claim_C9_witness :
    select_best_candidate [⟨1, 5⟩] = select_best_candidate [⟨1, 5⟩]
    ∧ (∀ c, select_best_candidate [⟨1, 5⟩] = some c →
        c ∈ [(⟨1, 5⟩ : Cand)] ∧ ∀ d ∈ [(⟨1, 5⟩ : Cand)], d.score ≤ c.score)
    ∧ select_best_candidate ([] : List Cand) = none :=
  claim_C9 [⟨1, 5⟩] [⟨1, 5⟩] rfl

end Readability

